import Mathlib

/-!
Verification of the lessgo in-process WebSocket hub
===================================================

This file is a shallow embedding, in Lean 4, of the real-time messaging hub
of the `lessgo` web framework.  The repository contains two revisions of the
hub:

* the `websocket` package revision (`Client`, `Hub` with `clients : map[*Client]bool`,
  non-blocking broadcast with a `select`/`default` eviction), embedded below in
  namespace `WS`; and
* the `context` package revision (`internal/core/context/context.go`,
  `clients : map[string]*Client` keyed by a reconnection id, an undelivered-message
  backlog with capacity 100, blocking channel sends), embedded in namespace `Ctx`.

Modelling conventions:

* Go pointers (`*Client`) are modelled as natural-number addresses into an
  explicit heap (an association list `List (Nat × Client)`); mutating a field
  through a pointer is an update of the heap at that address.
* Go maps are association lists with lookup/insert/delete/update operations
  (`mlookup`, `mput`, `mdel`, `mupd`); `map[T]bool` sets are plain lists with
  set-insert (`sadd`) and delete (`sdel`).  Go map iteration order is
  unspecified; the embedding iterates in list order.
* `uuid.NewString()` and the `client_id` query parameter are abstracted to
  natural numbers drawn from a fresh counter; an absent or empty `client_id`
  is `Option.none`.
* A buffered channel is a FIFO list plus a capacity.  A *blocking* send
  (`ch <- m` outside a `select`, as in the `context.go` revision) is modelled
  as an unconditional append: the message is eventually enqueued once the
  channel has room (the possibility of the sender blocking forever is a
  liveness matter outside this sequential embedding).  The *non-blocking* send
  (`select { case ch <- m: default: ... }` of the `websocket` revision) tests
  the capacity and runs the `default` branch when the buffer is full.
* Byte-slice payloads are Lean `String`s; `bytes.Replace`, `bytes.TrimSpace`,
  `bytes.HasPrefix` and `bytes.SplitN` are re-implemented on `List Char`.
* A Go runtime panic (indexing a slice out of range) is an `Except.error`
  outcome of the operation that panics.
-/

/-! ## Association-list maps (the embedding of Go maps) -/

section MapLib

variable {α β : Type} [DecidableEq α]

/-- Go map read `m[k]` (with the `, ok` form): first binding of `k`. -/
def mlookup (k : α) : List (α × β) → Option β
  | [] => none
  | (a, b) :: t => if a = k then some b else mlookup k t

/-- Go map write `m[k] = v`: replace the binding of `k`, or append it. -/
def mput (k : α) (v : β) : List (α × β) → List (α × β)
  | [] => [(k, v)]
  | (a, b) :: t => if a = k then (k, v) :: t else (a, b) :: mput k v t

/-- Go map `delete(m, k)`. -/
def mdel (k : α) : List (α × β) → List (α × β)
  | [] => []
  | (a, b) :: t => if a = k then mdel k t else (a, b) :: mdel k t

/-- In-place mutation through a map value that is a pointer/struct:
update the value bound to `k` by `f`. -/
def mupd (k : α) (f : β → β) : List (α × β) → List (α × β)
  | [] => []
  | (a, b) :: t => if a = k then (a, f b) :: mupd k f t else (a, b) :: mupd k f t

/-- The keys of a map. -/
def mkeys (l : List (α × β)) : List α := l.map Prod.fst

theorem mlookup_mput_self (k : α) (v : β) (l : List (α × β)) :
    mlookup k (mput k v l) = some v := by
  induction l with
  | nil => simp [mput, mlookup]
  | cons hd t ih =>
    obtain ⟨a, b⟩ := hd
    by_cases h : a = k <;> simp [mput, mlookup, h, ih]

theorem mlookup_mput_ne {j k : α} (h : j ≠ k) (v : β) (l : List (α × β)) :
    mlookup j (mput k v l) = mlookup j l := by
  induction l with
  | nil => simp [mput, mlookup, Ne.symm h]
  | cons hd t ih =>
    obtain ⟨a, b⟩ := hd
    by_cases ha : a = k
    · subst ha
      simp [mput, mlookup, Ne.symm h]
    · simp [mput, mlookup, ha, ih]

theorem mlookup_mdel_self (k : α) (l : List (α × β)) :
    mlookup k (mdel k l) = none := by
  induction l with
  | nil => simp [mdel, mlookup]
  | cons hd t ih =>
    obtain ⟨a, b⟩ := hd
    by_cases h : a = k <;> simp [mdel, mlookup, h, ih]

theorem mlookup_mdel_ne {j k : α} (h : j ≠ k) (l : List (α × β)) :
    mlookup j (mdel k l) = mlookup j l := by
  induction l with
  | nil => simp [mdel]
  | cons hd t ih =>
    obtain ⟨a, b⟩ := hd
    by_cases ha : a = k
    · subst ha
      simp [mdel, mlookup, Ne.symm h, ih]
    · simp [mdel, mlookup, ha, ih]

theorem mlookup_mupd_self (k : α) (f : β → β) (l : List (α × β)) :
    mlookup k (mupd k f l) = (mlookup k l).map f := by
  induction l with
  | nil => simp [mupd, mlookup]
  | cons hd t ih =>
    obtain ⟨a, b⟩ := hd
    by_cases h : a = k <;> simp [mupd, mlookup, h, ih]

theorem mlookup_mupd_ne {j k : α} (h : j ≠ k) (f : β → β) (l : List (α × β)) :
    mlookup j (mupd k f l) = mlookup j l := by
  induction l with
  | nil => simp [mupd]
  | cons hd t ih =>
    obtain ⟨a, b⟩ := hd
    by_cases ha : a = k
    · subst ha
      simp [mupd, mlookup, Ne.symm h, ih]
    · simp [mupd, mlookup, ha, ih]

theorem mupd_absent {k : α} {l : List (α × β)} (h : mlookup k l = none)
    (f : β → β) : mupd k f l = l := by
  induction l with
  | nil => simp [mupd]
  | cons hd t ih =>
    obtain ⟨a, b⟩ := hd
    by_cases ha : a = k
    · subst ha
      simp [mlookup] at h
    · simp [mlookup, ha] at h
      simp [mupd, ha, ih h]

theorem mput_self {k : α} {v : β} {l : List (α × β)} (h : mlookup k l = some v) :
    mput k v l = l := by
  induction l with
  | nil => simp [mlookup] at h
  | cons hd t ih =>
    obtain ⟨a, b⟩ := hd
    by_cases ha : a = k
    · subst ha
      simp [mlookup] at h
      simp [mput, h]
    · simp [mlookup, ha] at h
      simp [mput, ha, ih h]

theorem mlookup_mem {k : α} {v : β} {l : List (α × β)}
    (h : mlookup k l = some v) : (k, v) ∈ l := by
  induction l with
  | nil => simp [mlookup] at h
  | cons hd t ih =>
    obtain ⟨a, b⟩ := hd
    by_cases ha : a = k
    · subst ha
      simp [mlookup] at h
      simp [h]
    · simp [mlookup, ha] at h
      simp [ih h]

theorem mem_mlookup {k : α} {v : β} {l : List (α × β)}
    (hnd : (mkeys l).Nodup) (h : (k, v) ∈ l) : mlookup k l = some v := by
  induction l with
  | nil => simp at h
  | cons hd t ih =>
    obtain ⟨a, b⟩ := hd
    rw [show mkeys ((a, b) :: t) = a :: mkeys t from rfl, List.nodup_cons] at hnd
    rcases List.mem_cons.mp h with heq | hmem
    · cases heq
      simp [mlookup]
    · have hak : a ≠ k := by
        rintro rfl
        exact hnd.1 (by simpa [mkeys] using List.mem_map_of_mem Prod.fst hmem)
      simp [mlookup, hak, ih hnd.2 hmem]

theorem mlookup_isSome_of_mem_mkeys {k : α} {l : List (α × β)}
    (h : k ∈ mkeys l) : ∃ v, mlookup k l = some v := by
  induction l with
  | nil => simp [mkeys] at h
  | cons hd t ih =>
    obtain ⟨a, b⟩ := hd
    by_cases hak : a = k
    · exact ⟨b, by simp [mlookup, hak]⟩
    · rw [show mkeys ((a, b) :: t) = a :: mkeys t from rfl] at h
      rcases List.mem_cons.mp h with h | h
      · exact absurd h.symm hak
      · obtain ⟨v, hv⟩ := ih h
        exact ⟨v, by simp [mlookup, hak, hv]⟩

theorem mkeys_mupd (k : α) (f : β → β) (l : List (α × β)) :
    mkeys (mupd k f l) = mkeys l := by
  induction l with
  | nil => simp [mupd]
  | cons hd t ih =>
    obtain ⟨a, b⟩ := hd
    by_cases h : a = k <;> simp [mupd, mkeys, h] <;>
      simpa [mkeys] using ih

theorem mkeys_mput_absent {k : α} {l : List (α × β)} (h : mlookup k l = none)
    (v : β) : mkeys (mput k v l) = mkeys l ++ [k] := by
  induction l with
  | nil => simp [mput, mkeys]
  | cons hd t ih =>
    obtain ⟨a, b⟩ := hd
    by_cases ha : a = k
    · subst ha
      simp [mlookup] at h
    · simp [mlookup, ha] at h
      simp [mput, mkeys, ha] at ih ⊢
      exact ih h

theorem mkeys_mput_present {k : α} {l : List (α × β)} {w : β}
    (h : mlookup k l = some w) (v : β) : mkeys (mput k v l) = mkeys l := by
  induction l with
  | nil => simp [mlookup] at h
  | cons hd t ih =>
    obtain ⟨a, b⟩ := hd
    by_cases ha : a = k
    · subst ha
      simp [mput, mkeys]
    · simp [mlookup, ha] at h
      simp [mput, mkeys, ha] at ih ⊢
      exact ih h

theorem mkeys_mdel (k : α) (l : List (α × β)) :
    mkeys (mdel k l) = (mkeys l).filter (fun a => decide (a ≠ k)) := by
  induction l with
  | nil => simp [mdel, mkeys]
  | cons hd t ih =>
    obtain ⟨a, b⟩ := hd
    by_cases h : a = k <;> simp [mdel, mkeys, h, List.filter] at ih ⊢ <;>
      simpa [mkeys] using ih

theorem nodup_mkeys_mdel {k : α} {l : List (α × β)} (h : (mkeys l).Nodup) :
    (mkeys (mdel k l)).Nodup := by
  rw [mkeys_mdel]
  exact h.filter _

theorem nodup_mkeys_mput {k : α} {v : β} {l : List (α × β)}
    (h : (mkeys l).Nodup) : (mkeys (mput k v l)).Nodup := by
  cases hk : mlookup k l with
  | none =>
    rw [mkeys_mput_absent hk]
    have hkm : k ∉ mkeys l := by
      intro hm
      obtain ⟨w, hw⟩ := mlookup_isSome_of_mem_mkeys hm
      rw [hk] at hw
      cases hw
    simp [List.nodup_append, h, hkm, List.disjoint_singleton]
  | some w =>
    rw [mkeys_mput_present hk]
    exact h

end MapLib

/-! ### Updating a batch of map entries (the embedding of a Go `for … range` of sends) -/

section MupdAll

variable {α β : Type} [DecidableEq α]

/-- Apply the per-value update `f` at every address in `ps`, left to right. -/
def mupdAll (f : β → β) (ps : List α) (l : List (α × β)) : List (α × β) :=
  ps.foldl (fun acc p => mupd p f acc) l

theorem mupdAll_nil (f : β → β) (l : List (α × β)) : mupdAll f [] l = l := rfl

theorem mupdAll_cons (f : β → β) (p : α) (ps : List α) (l : List (α × β)) :
    mupdAll f (p :: ps) l = mupdAll f ps (mupd p f l) := rfl

theorem mlookup_mupdAll_notMem {k : α} {ps : List α} (h : k ∉ ps)
    (f : β → β) (l : List (α × β)) :
    mlookup k (mupdAll f ps l) = mlookup k l := by
  induction ps generalizing l with
  | nil => simp [mupdAll]
  | cons p ps ih =>
    simp at h
    rw [mupdAll_cons, ih h.2, mlookup_mupd_ne h.1]

theorem mlookup_mupdAll_mem {k : α} {ps : List α} (hnd : ps.Nodup) (h : k ∈ ps)
    (f : β → β) (l : List (α × β)) :
    mlookup k (mupdAll f ps l) = (mlookup k l).map f := by
  induction ps generalizing l with
  | nil => simp at h
  | cons p ps ih =>
    rw [mupdAll_cons]
    have hnd' := List.nodup_cons.mp hnd
    rcases List.mem_cons.mp h with heq | hm
    · subst heq
      rw [mlookup_mupdAll_notMem hnd'.1 f, mlookup_mupd_self]
    · have hk : k ≠ p := by
        rintro rfl
        exact hnd'.1 hm
      rw [ih hnd'.2 hm, mlookup_mupd_ne hk]

theorem mkeys_mupdAll (f : β → β) (ps : List α) (l : List (α × β)) :
    mkeys (mupdAll f ps l) = mkeys l := by
  induction ps generalizing l with
  | nil => simp [mupdAll]
  | cons p ps ih => rw [mupdAll_cons, ih, mkeys_mupd]

end MupdAll

/-! ### List sets (the embedding of Go `map[T]bool` used as a set) -/

section SetLib

variable {α : Type} [DecidableEq α]

/-- Go set insert `m[x] = true` (idempotent). -/
def sadd (x : α) (l : List α) : List α := if x ∈ l then l else l ++ [x]

/-- Go set delete `delete(m, x)`. -/
def sdel (x : α) (l : List α) : List α := l.filter (fun y => decide (y ≠ x))

theorem mem_sadd_self (x : α) (l : List α) : x ∈ sadd x l := by
  by_cases h : x ∈ l <;> simp [sadd, h]

theorem mem_sadd {x y : α} (l : List α) :
    y ∈ sadd x l ↔ y ∈ l ∨ y = x := by
  by_cases h : x ∈ l
  · simp [sadd, h]
    rintro rfl
    exact h
  · simp [sadd, h, or_comm]

theorem not_mem_sdel_self (x : α) (l : List α) : x ∉ sdel x l := by
  simp [sdel]

theorem mem_sdel {x y : α} (l : List α) :
    y ∈ sdel x l ↔ y ∈ l ∧ y ≠ x := by
  simp [sdel]

theorem sdel_eq_self {x : α} {l : List α} (h : x ∉ l) : sdel x l = l := by
  induction l with
  | nil => rfl
  | cons a t ih =>
    simp only [List.mem_cons, not_or] at h
    have ht := ih h.2
    simp only [sdel] at ht ⊢
    rw [List.filter_cons, if_pos (by simpa using Ne.symm h.1), ht]

end SetLib

/-! ## Wire-protocol frame parsing

The read loop is textually identical in the two revisions
(`Client.readPump`): the inbound frame is normalized with
`bytes.TrimSpace(bytes.Replace(message, newline, space, -1))` and then
dispatched on its command prefix.  `bytes.SplitN(rest, " ", 2)` yields one
part when `rest` contains no space, and indexing part `[1]` then panics
(index out of range); the panic outcome is an `Except.error`. -/

/-- `unicode.IsSpace` on the byte values Go's `bytes.TrimSpace` trims
(space, tab, newline, vertical tab, form feed, carriage return, NEL, NBSP). -/
def goIsSpace (c : Char) : Bool :=
  c == ' ' || c == '\t' || c == '\n' || c == '\u000B' || c == '\u000C' ||
    c == '\r' || c == '\u0085' || c == '\u00A0'

/-- One step of `bytes.Replace(message, newline, space, -1)`:
the pattern is the single byte `'\n'`, so the replacement is pointwise. -/
def nl2sp (c : Char) : Char := if c = '\n' then ' ' else c

/-- `bytes.TrimSpace`: drop leading and trailing whitespace. -/
def trimChars (l : List Char) : List Char :=
  ((l.dropWhile goIsSpace).reverse.dropWhile goIsSpace).reverse

/-- The read loop's normalization:
`bytes.TrimSpace(bytes.Replace(message, newline, space, -1))`. -/
def normalizeFrame (s : String) : String :=
  String.mk (trimChars (s.data.map nl2sp))

/-- `bytes.SplitN(l, " ", 2)`: split around the first space only. -/
def splitN2 (l : List Char) : List (List Char) :=
  let a := l.takeWhile (fun c => decide (c ≠ ' '))
  let b := l.dropWhile (fun c => decide (c ≠ ' '))
  if b = [] then [a] else [a, b.drop 1]

/-- The commands the read loop distinguishes. -/
inductive Cmd where
  | joinRoom (room : String)
  | roomMessage (room : String) (body : String)
  | leaveRoom (room : String)
  | privateMessage (receiver : String) (body : String)
  | global (body : String)
deriving DecidableEq, Repr

/-- The read loop's prefix dispatch on an already-normalized frame `n`.
The `if`/`else if` chain mirrors `Client.readPump`; the `Except.error`
branches are the `roomNameAndMessage[1]` / `receiverAndMessage[1]`
out-of-range panics when the remainder holds no space separator. -/
def parseFrame (n : String) : Except String Cmd :=
  let l := n.data
  if List.isPrefixOf "join_room:".data l then
    .ok (.joinRoom (String.mk (l.drop 10)))
  else if List.isPrefixOf "room_message:".data l then
    match splitN2 (l.drop 13) with
    | [room, body] => .ok (.roomMessage (String.mk room) (String.mk body))
    | _ => .error "panic: runtime error: index out of range"
  else if List.isPrefixOf "leave_room:".data l then
    .ok (.leaveRoom (String.mk (l.drop 11)))
  else if List.isPrefixOf "private_message:".data l then
    match splitN2 (l.drop 16) with
    | [receiver, body] => .ok (.privateMessage (String.mk receiver) (String.mk body))
    | _ => .error "panic: runtime error: index out of range"
  else .ok (.global n)

/-! ## The `context.go` revision of the hub (namespace `Ctx`)

`Hub` has `clients map[string]*Client` keyed by the reconnection id,
`rooms map[string]map[*Client]bool`, an undelivered-message backlog of
capacity 100 per client, and *blocking* channel sends everywhere
(`client.send <- message` with no `select`/`default`). -/

namespace Ctx

/-- Outbound payloads (`[]byte`). -/
abbrev Msg := String

/-- `context.go`'s `Client`.  `conn` is an opaque token for the attached
`*websocket.Conn`; `send` is the contents of the 256-buffered outbound
channel (sends to it are blocking in this revision, so its capacity never
changes which messages get enqueued); `sendClosed` records `close(c.send)`;
`id` abstracts the uuid string to a number drawn from a fresh counter. -/
structure Client where
  name : String
  id : Nat
  conn : Nat
  send : List Msg
  sendClosed : Bool
  undeliveredMsg : List Msg
deriving DecidableEq, Repr

/-- The hub plus the heap of all `Client` structs ever allocated.
Pointers (`*Client`) are `Nat` addresses into `heap`; `clients` maps a
reconnection id to the pointer registered under it; `rooms` maps a room
name to its membership set of pointers. -/
structure HubState where
  heap : List (Nat × Client)
  clients : List (Nat × Nat)
  rooms : List (String × List Nat)
  nextPtr : Nat
  nextId : Nat
deriving DecidableEq, Repr

/-- The hub of `NewWsServer`: all tables empty. -/
def initState : HubState :=
  { heap := [], clients := [], rooms := [], nextPtr := 0, nextId := 0 }

/-- `maxUndeliveredMsg` in `context.go`. -/
def maxUndeliveredMsg : Nat := 100

/-- A blocking channel send `c.send <- m` (the message is enqueued once
the channel has room; blocking forever is a liveness matter not modelled). -/
def pushMsg (m : Msg) (c : Client) : Client :=
  { c with send := c.send ++ [m] }

/-- `close(c.send)`. -/
def closeSend (c : Client) : Client :=
  { c with sendClosed := true }

/-- The `register` case of `Hub.Run`: `h.clients[client.id] = client`.
(A dangling pointer cannot reach the register channel; that artificial
case leaves the state unchanged.) -/
def register (s : HubState) (p : Nat) : HubState :=
  match mlookup p s.heap with
  | some c => { s with clients := mput c.id p s.clients }
  | none => s

/-- The `unregister` case of `Hub.Run`:
`if _, ok := h.clients[client.id]; ok { delete(h.clients, client.id); close(client.send) }`.
Note that the rooms tables are left untouched. -/
def unregister (s : HubState) (p : Nat) : HubState :=
  match mlookup p s.heap with
  | none => s
  | some c =>
    match mlookup c.id s.clients with
    | some _ => { s with clients := mdel c.id s.clients, heap := mupd p closeSend s.heap }
    | none => s

/-- The `broadcast` case of `Hub.Run`:
`for _, client := range h.clients { client.send <- message }`. -/
def hubBroadcast (s : HubState) (m : Msg) : HubState :=
  { s with heap := mupdAll (pushMsg m) (s.clients.map Prod.snd) s.heap }

/-- `Hub.createRoom`. -/
def createRoom (s : HubState) (name : String) : HubState :=
  if (mlookup name s.rooms).isSome then s
  else { s with rooms := mput name [] s.rooms }

/-- `Hub.joinRoom`. -/
def joinRoom (s : HubState) (p : Nat) (room : String) : HubState :=
  match mlookup room s.rooms with
  | some mem => { s with rooms := mput room (sadd p mem) s.rooms }
  | none => s

/-- `Hub.HandleJoinRoom`: `createRoom` then `joinRoom`. -/
def handleJoinRoom (s : HubState) (p : Nat) (room : String) : HubState :=
  joinRoom (createRoom s room) p room

/-- `Hub.handleLeaveRoom`: remove the member, then delete the room if its
membership became empty. -/
def handleLeaveRoom (s : HubState) (p : Nat) (room : String) : HubState :=
  match mlookup room s.rooms with
  | none => s
  | some mem =>
    let mem' := sdel p mem
    if mem' = [] then { s with rooms := mdel room s.rooms }
    else { s with rooms := mput room mem' s.rooms }

/-- `Hub.handleRoomBroadcast` (this revision: blocking sends, no eviction). -/
def handleRoomBroadcast (s : HubState) (roomName : String) (m : Msg) : HubState :=
  match mlookup roomName s.rooms with
  | none => s
  | some mem => { s with heap := mupdAll (pushMsg m) mem s.heap }

/-- `Hub.handlePrivateMessage`: linear scan of the client table, blocking
send to every client whose display name matches. -/
def handlePrivateMessage (s : HubState) (receiverName : String) (m : Msg) : HubState :=
  let ps := (s.clients.map Prod.snd).filter (fun p =>
    match mlookup p s.heap with
    | some c => decide (c.name = receiverName)
    | none => false)
  { s with heap := mupdAll (pushMsg m) ps s.heap }

/-- `Client.addUndeliveredMsg` on the backlog list itself: when the backlog
already holds `maxUndeliveredMsg` entries the oldest is dropped first. -/
def addUndelivered (b : List Msg) (m : Msg) : List Msg :=
  (if maxUndeliveredMsg ≤ b.length then b.drop 1 else b) ++ [m]

/-- `Client.addUndeliveredMsg`. -/
def addUndeliveredMsg (c : Client) (m : Msg) : Client :=
  { c with undeliveredMsg := addUndelivered c.undeliveredMsg m }

/-- The `NextWriter` failure branch of `Client.writePump`: the message taken
from the queue is moved to the undelivered backlog and the pump exits. -/
def writePumpFail (s : HubState) (p : Nat) (m : Msg) : HubState :=
  { s with heap := mupd p (fun c => addUndeliveredMsg c m) s.heap }

/-- `Client.sendUndeliveredMsg`: enqueue every backlog entry in order to the
outbound channel, then clear the backlog. -/
def sendUndeliveredMsg (c : Client) : Client :=
  { c with send := c.send ++ c.undeliveredMsg, undeliveredMsg := [] }

/-- The `Client` literal of `serveWs`'s new-client branch:
`&Client{hub, conn, send: make(chan []byte, 256), id: clientID, name: "root", undeliveredMsg: [][]byte{}}`. -/
def newClient (cid conn : Nat) : Client :=
  { name := "root", id := cid, conn := conn, send := [],
    sendClosed := false, undeliveredMsg := [] }

/-- The new-client branch of `serveWs`: a fresh uuid, a fresh `Client`
with display name `"root"` and empty queues, then `register`. -/
def serveWsNew (s : HubState) (conn : Nat) : HubState :=
  let cid := s.nextId
  let p := s.nextPtr
  register
    { s with heap := mput p (newClient cid conn) s.heap,
             nextPtr := p + 1, nextId := cid + 1 } p

/-- `serveWs` after a successful upgrade.  `clientID` is the `client_id`
query parameter (`none` for absent or empty).  If the id is supplied and
still registered, the existing `Client` is reused: its `conn` is replaced
and the backlog flushed; otherwise a fresh client is allocated under a
fresh uuid.  Either way the client is sent to the register channel. -/
def serveWs (s : HubState) (clientID : Option Nat) (conn : Nat) : HubState :=
  match clientID with
  | some cid =>
    match mlookup cid s.clients with
    | some p =>
      register
        { s with heap := mupd p (fun c => sendUndeliveredMsg { c with conn := conn }) s.heap } p
    | none => serveWsNew s conn
  | none => serveWsNew s conn

/-- The hub-facing operations: `serveWs` (upgrade plus register), the
unregister and broadcast channels of `Hub.Run`, the room and private
handlers called from read loops, and the write-pump failure that feeds
the backlog. -/
inductive Op where
  | connect (clientID : Option Nat) (conn : Nat)
  | unreg (p : Nat)
  | brdcst (m : Msg)
  | join (p : Nat) (room : String)
  | leave (p : Nat) (room : String)
  | roomMsg (room : String) (m : Msg)
  | privMsg (receiver : String) (m : Msg)
  | wpFail (p : Nat) (m : Msg)
deriving DecidableEq, Repr

/-- One serialized hub operation. -/
def step (s : HubState) : Op → HubState
  | .connect cid conn => serveWs s cid conn
  | .unreg p => unregister s p
  | .brdcst m => hubBroadcast s m
  | .join p r => handleJoinRoom s p r
  | .leave p r => handleLeaveRoom s p r
  | .roomMsg r m => handleRoomBroadcast s r m
  | .privMsg n m => handlePrivateMessage s n m
  | .wpFail p m => writePumpFail s p m

/-- A finite trace of hub operations. -/
def run (s : HubState) (ops : List Op) : HubState := ops.foldl step s

/-- `c.send <- m` issued by the read loop (the confirmation frames). -/
def enqueueTo (s : HubState) (p : Nat) (m : Msg) : HubState :=
  { s with heap := mupd p (pushMsg m) s.heap }

/-- One iteration of `Client.readPump` for client `p` on inbound frame
`raw`: normalize, dispatch by prefix, panic (`Except.error`) on a missing
body separator. -/
def handleFrame (s : HubState) (p : Nat) (raw : String) : Except String HubState :=
  match parseFrame (normalizeFrame raw) with
  | .error e => .error e
  | .ok (.joinRoom r) => .ok (enqueueTo (handleJoinRoom s p r) p ("join_room_success:" ++ r))
  | .ok (.roomMessage r b) => .ok (handleRoomBroadcast s r b)
  | .ok (.leaveRoom r) => .ok (enqueueTo (handleLeaveRoom s p r) p ("leave_room_success:" ++ r))
  | .ok (.privateMessage w b) => .ok (handlePrivateMessage s w b)
  | .ok (.global b) => .ok (hubBroadcast s b)

end Ctx

/-! ## The `websocket` package revision of the hub (namespace `WS`)

This earlier revision has no reconnection ids and no backlog:
`Hub.clients` is a set `map[*Client]bool`, and the broadcast fan-out uses a
non-blocking `select` send whose `default` branch closes the slow client's
queue and deletes it from the table. -/

namespace WS

/-- Outbound payloads (`[]byte`). -/
abbrev Msg := String

/-- The `websocket` package's `Client`: display name and the buffered
outbound channel (`make(chan []byte, 256)`), whose capacity matters here
because sends are non-blocking. -/
structure Client where
  name : String
  send : List Msg
  sendCap : Nat
  sendClosed : Bool
deriving DecidableEq, Repr

/-- The `websocket` package's `Hub`: a pointer set of registered clients
and the room tables. -/
structure HubState where
  heap : List (Nat × Client)
  clients : List Nat
  rooms : List (String × List Nat)
  nextPtr : Nat
deriving DecidableEq, Repr

/-- `newHub()`: all tables empty. -/
def initState : HubState :=
  { heap := [], clients := [], rooms := [], nextPtr := 0 }

/-- `close(c.send)`. -/
def closeSend (c : Client) : Client :=
  { c with sendClosed := true }

/-- The `register` case of `Hub.Run`: `h.clients[client] = true`. -/
def register (s : HubState) (p : Nat) : HubState :=
  { s with clients := sadd p s.clients }

/-- The `unregister` case of `Hub.Run`. -/
def unregister (s : HubState) (p : Nat) : HubState :=
  if p ∈ s.clients then
    { s with clients := sdel p s.clients, heap := mupd p closeSend s.heap }
  else s

/-- `serveWs` of the `websocket` package: allocate a fresh client with
display name `"root"` and a 256-buffered queue, then register it. -/
def serveWs (s : HubState) : HubState :=
  let p := s.nextPtr
  let c : Client := { name := "root", send := [], sendCap := 256, sendClosed := false }
  register { s with heap := mput p c s.heap, nextPtr := p + 1 } p

/-- One iteration of the broadcast fan-out loop of `Hub.Run`:
`select { case client.send <- message: default: close(client.send); delete(h.clients, client) }`.
A send on a channel with buffer space succeeds immediately; otherwise the
`default` branch runs: the queue is closed and the client evicted from the
table.  (In Go a send on an already-closed channel panics even inside
`select`; a closed channel is treated as not ready here, so it too takes
the `default` branch — that situation is outside every theorem below,
which all assume the queue is open.) -/
def broadcastStep (m : Msg) (s : HubState) (p : Nat) : HubState :=
  match mlookup p s.heap with
  | none => s
  | some c =>
    if c.send.length < c.sendCap ∧ c.sendClosed = false then
      { s with heap := mupd p (fun cl => { cl with send := cl.send ++ [m] }) s.heap }
    else
      { s with heap := mupd p closeSend s.heap, clients := sdel p s.clients }

/-- The `broadcast` case of `Hub.Run`: the fan-out loop over the client set. -/
def hubBroadcast (s : HubState) (m : Msg) : HubState :=
  s.clients.foldl (broadcastStep m) s

theorem broadcastStep_other {p q : Nat} (h : p ≠ q) (m : Msg) (s : HubState) :
    mlookup p (broadcastStep m s q).heap = mlookup p s.heap ∧
      ((p ∈ (broadcastStep m s q).clients) ↔ p ∈ s.clients) := by
  unfold broadcastStep
  cases mlookup q s.heap with
  | none => exact ⟨rfl, Iff.rfl⟩
  | some c =>
    by_cases hc : c.send.length < c.sendCap ∧ c.sendClosed = false
    · simp only [hc, if_true]
      exact ⟨mlookup_mupd_ne h _ _, Iff.rfl⟩
    · simp only [hc, if_false]
      exact ⟨mlookup_mupd_ne h _ _, by simpa [mem_sdel] using fun _ => h⟩

theorem foldBroadcast_other (m : Msg) {ps : List Nat} {p : Nat} (hp : p ∉ ps) :
    ∀ s : HubState,
      mlookup p (ps.foldl (broadcastStep m) s).heap = mlookup p s.heap ∧
        ((p ∈ (ps.foldl (broadcastStep m) s).clients) ↔ p ∈ s.clients) := by
  induction ps with
  | nil => exact fun s => ⟨rfl, Iff.rfl⟩
  | cons q t ih =>
    intro s
    simp only [List.mem_cons, not_or] at hp
    have h1 := broadcastStep_other hp.1 m s
    have h2 := ih hp.2 (broadcastStep m s q)
    exact ⟨h2.1.trans h1.1, h2.2.trans h1.2⟩

theorem foldBroadcast_effect (m : Msg) {ps : List Nat} (hnd : ps.Nodup)
    {p : Nat} (hp : p ∈ ps) :
    ∀ (s : HubState) (c : Client), mlookup p s.heap = some c →
      (c.send.length < c.sendCap ∧ c.sendClosed = false →
        mlookup p (ps.foldl (broadcastStep m) s).heap =
            some { c with send := c.send ++ [m] } ∧
          ((p ∈ (ps.foldl (broadcastStep m) s).clients) ↔ p ∈ s.clients)) ∧
      (¬(c.send.length < c.sendCap ∧ c.sendClosed = false) →
        mlookup p (ps.foldl (broadcastStep m) s).heap = some (closeSend c) ∧
          p ∉ (ps.foldl (broadcastStep m) s).clients) := by
  induction ps with
  | nil => cases hp
  | cons q t ih =>
    intro s c hc
    have hnd' := List.nodup_cons.mp hnd
    rcases List.mem_cons.mp hp with heq | hm
    · subst heq
      have hrest := foldBroadcast_other m hnd'.1
      constructor
      · intro hroom
        have hstep : broadcastStep m s p =
            { s with heap := mupd p (fun cl => { cl with send := cl.send ++ [m] }) s.heap } := by
          unfold broadcastStep
          rw [hc]
          simp [hroom]
        have h2 := hrest (broadcastStep m s p)
        rw [List.foldl_cons]
        refine ⟨?_, ?_⟩
        · rw [h2.1, hstep]
          simp [mlookup_mupd_self, hc]
        · rw [h2.2, hstep]
      · intro hroom
        have hstep : broadcastStep m s p =
            { s with heap := mupd p closeSend s.heap, clients := sdel p s.clients } := by
          unfold broadcastStep
          rw [hc]
          simp [hroom]
        have h2 := hrest (broadcastStep m s p)
        rw [List.foldl_cons]
        refine ⟨?_, ?_⟩
        · rw [h2.1, hstep]
          simp [mlookup_mupd_self, hc, closeSend]
        · intro hmem
          have hmem' := h2.2.mp hmem
          rw [hstep] at hmem'
          exact not_mem_sdel_self p s.clients hmem'
    · have hpq : p ≠ q := by
        rintro rfl
        exact hnd'.1 hm
      have h1 := broadcastStep_other hpq m s
      have h2 := ih hnd'.2 hm (broadcastStep m s q) c (by rw [h1.1]; exact hc)
      rw [List.foldl_cons]
      refine ⟨fun hroom => ?_, fun hroom => ?_⟩
      · obtain ⟨ha, hb⟩ := (h2).1 hroom
        exact ⟨ha, hb.trans h1.2⟩
      · exact (h2).2 hroom

end WS

/-! ## Further map lemmas used by the invariant proofs -/

section MapLibExtra

variable {α β γ : Type} [DecidableEq α]

theorem mem_mput_elim {e : α × β} {k : α} {v : β} {l : List (α × β)}
    (h : e ∈ mput k v l) : e = (k, v) ∨ e ∈ l := by
  induction l with
  | nil => simpa [mput] using h
  | cons hd t ih =>
    obtain ⟨a, b⟩ := hd
    by_cases ha : a = k
    · subst ha
      simp [mput] at h
      rcases h with h | h
      · exact Or.inl (by simp [h])
      · exact Or.inr (by simp [h])
    · simp [mput, ha] at h
      rcases h with h | h
      · exact Or.inr (by simp [h])
      · rcases ih h with h' | h'
        · exact Or.inl h'
        · exact Or.inr (by simp [h'])

theorem mem_mdel_elim {e : α × β} {k : α} {l : List (α × β)}
    (h : e ∈ mdel k l) : e ∈ l := by
  induction l with
  | nil => simpa [mdel] using h
  | cons hd t ih =>
    obtain ⟨a, b⟩ := hd
    by_cases ha : a = k
    · subst ha
      simp [mdel] at h
      exact List.mem_cons_of_mem _ (ih h)
    · simp [mdel, ha] at h
      rcases h with h | h
      · simp [h]
      · exact List.mem_cons_of_mem _ (ih h)

theorem mem_mupd_elim {e : α × β} {k : α} {f : β → β} {l : List (α × β)}
    (h : e ∈ mupd k f l) : e ∈ l ∨ ∃ b, (k, b) ∈ l ∧ e = (k, f b) := by
  induction l with
  | nil => simpa [mupd] using h
  | cons hd t ih =>
    obtain ⟨a, b⟩ := hd
    by_cases ha : a = k
    · subst ha
      simp [mupd] at h
      rcases h with h | h
      · exact Or.inr ⟨b, by simp, h⟩
      · rcases ih h with h' | ⟨b', hb', he⟩
        · exact Or.inl (List.mem_cons_of_mem _ h')
        · exact Or.inr ⟨b', List.mem_cons_of_mem _ hb', he⟩
    · simp [mupd, ha] at h
      rcases h with h | h
      · exact Or.inl (by simp [h])
      · rcases ih h with h' | ⟨b', hb', he⟩
        · exact Or.inl (List.mem_cons_of_mem _ h')
        · exact Or.inr ⟨b', List.mem_cons_of_mem _ hb', he⟩

theorem mupd_preserves_all {P : α × β → Prop} {l : List (α × β)} {k : α} (f : β → β)
    (hl : ∀ e ∈ l, P e) (hf : ∀ a b, P (a, b) → P (a, f b)) :
    ∀ e ∈ mupd k f l, P e := by
  intro e he
  rcases mem_mupd_elim he with h | ⟨b, hb, rfl⟩
  · exact hl e h
  · exact hf k b (hl _ hb)

theorem mupdAll_preserves_all {P : α × β → Prop} {l : List (α × β)} (f : β → β)
    (ps : List α) (hl : ∀ e ∈ l, P e) (hf : ∀ a b, P (a, b) → P (a, f b)) :
    ∀ e ∈ mupdAll f ps l, P e := by
  induction ps generalizing l with
  | nil => exact hl
  | cons p ps ih =>
    rw [mupdAll_cons]
    exact ih (mupd_preserves_all f hl hf)

theorem mlookup_mupd_map (g : β → γ) (f : β → β) (hf : ∀ b, g (f b) = g b)
    (k q : α) (l : List (α × β)) :
    (mlookup k (mupd q f l)).map g = (mlookup k l).map g := by
  by_cases h : k = q
  · subst h
    rw [mlookup_mupd_self]
    cases mlookup k l <;> simp [hf]
  · rw [mlookup_mupd_ne h]

theorem mlookup_mupdAll_map (g : β → γ) (f : β → β) (hf : ∀ b, g (f b) = g b)
    (k : α) (ps : List α) (l : List (α × β)) :
    (mlookup k (mupdAll f ps l)).map g = (mlookup k l).map g := by
  induction ps generalizing l with
  | nil => rfl
  | cons p ps ih =>
    rw [mupdAll_cons, ih, mlookup_mupd_map g f hf]

theorem mlookup_eq_none_of_not_mem_mkeys {k : α} {l : List (α × β)}
    (h : k ∉ mkeys l) : mlookup k l = none := by
  cases hv : mlookup k l with
  | none => rfl
  | some v =>
    exact absurd (by simpa [mkeys] using List.mem_map_of_mem Prod.fst (mlookup_mem hv)) h

theorem snd_nodup_of_coherent {δ : Type} [DecidableEq δ] (g : β → α)
    {cl : List (α × δ)} {h : List (δ × β)}
    (hco : ∀ e ∈ cl, (mlookup e.2 h).map g = some e.1)
    (hkn : (mkeys cl).Nodup) : (cl.map Prod.snd).Nodup := by
  induction cl with
  | nil => simp
  | cons e t ih =>
    obtain ⟨i, p⟩ := e
    rw [show mkeys ((i, p) :: t) = i :: mkeys t from rfl, List.nodup_cons] at hkn
    rw [List.map_cons, List.nodup_cons]
    refine ⟨?_, ih (fun e he => hco e (List.mem_cons_of_mem _ he)) hkn.2⟩
    intro hp
    obtain ⟨e', hjq, hq⟩ := List.mem_map.mp hp
    obtain ⟨j, q⟩ := e'
    have hq2 : q = p := hq
    rw [hq2] at hjq
    have h1 := hco (i, p) (by simp)
    have h2 := hco (j, p) (List.mem_cons_of_mem _ hjq)
    simp only at h1 h2
    have hij : i = j := by
      rw [h1] at h2
      exact Option.some_injective _ h2
    subst hij
    exact hkn.1 (by simpa [mkeys] using List.mem_map_of_mem Prod.fst hjq)

theorem mput_mput_self (k : α) (v w : β) (l : List (α × β)) :
    mput k v (mput k w l) = mput k v l := by
  induction l with
  | nil => simp [mput]
  | cons hd t ih =>
    obtain ⟨a, b⟩ := hd
    by_cases ha : a = k
    · subst ha
      simp [mput]
    · simp [mput, ha, ih]

end MapLibExtra

/-! ## Reachable-state invariants of the `context.go` hub -/

namespace Ctx

/-- Every table binding `(id, p)` dereferences to a heap client whose `id`
field is the table key. -/
def tableCoherent (s : HubState) : Prop :=
  ∀ e ∈ s.clients, (mlookup e.2 s.heap).map Client.id = some e.1

/-- The reconnection ids keying the client table are pairwise distinct. -/
def tableKeysNodup (s : HubState) : Prop := (mkeys s.clients).Nodup

/-- Heap addresses are pairwise distinct. -/
def heapKeysNodup (s : HubState) : Prop := (mkeys s.heap).Nodup

/-- Heap addresses and client ids are below the allocation counters. -/
def heapFresh (s : HubState) : Prop :=
  ∀ e ∈ s.heap, e.1 < s.nextPtr ∧ e.2.id < s.nextId

/-- Every room present in the room table has at least one member
(`handleLeaveRoom` deletes a room that empties; `HandleJoinRoom` populates
a room as soon as it creates it). -/
def roomsNonempty (s : HubState) : Prop := ∀ e ∈ s.rooms, e.2 ≠ []

/-- Well-formedness, holding in the initial state and preserved by every
hub operation. -/
def WF (s : HubState) : Prop :=
  tableCoherent s ∧ tableKeysNodup s ∧ heapKeysNodup s ∧ heapFresh s ∧ roomsNonempty s

/-- Every allocated client carries the constant display name `"root"`. -/
def namesRoot (s : HubState) : Prop := ∀ e ∈ s.heap, e.2.name = "root"

instance (s : HubState) : Decidable (tableCoherent s) := by
  unfold tableCoherent
  infer_instance

instance (s : HubState) : Decidable (tableKeysNodup s) := by
  unfold tableKeysNodup
  infer_instance

instance (s : HubState) : Decidable (heapKeysNodup s) := by
  unfold heapKeysNodup
  infer_instance

instance (s : HubState) : Decidable (heapFresh s) := by
  unfold heapFresh
  infer_instance

instance (s : HubState) : Decidable (roomsNonempty s) := by
  unfold roomsNonempty
  infer_instance

instance (s : HubState) : Decidable (WF s) := by
  unfold WF
  infer_instance

instance (s : HubState) : Decidable (namesRoot s) := by
  unfold namesRoot
  infer_instance

theorem WF_init : WF initState := by decide

theorem namesRoot_init : namesRoot initState := by decide

/-- Registered pointers are pairwise distinct (derived from coherence and
distinctness of the table keys). -/
theorem table_snd_nodup {s : HubState} (h : WF s) :
    (s.clients.map Prod.snd).Nodup :=
  snd_nodup_of_coherent Client.id h.1 h.2.1

/-- A registered pointer dereferences to a client. -/
theorem table_deref {s : HubState} (h : WF s) {cid p : Nat}
    (hm : mlookup cid s.clients = some p) :
    ∃ c, mlookup p s.heap = some c ∧ c.id = cid := by
  have hco := h.1 (cid, p) (mlookup_mem hm)
  obtain ⟨c, hc, hid⟩ := Option.map_eq_some'.mp hco
  exact ⟨c, hc, hid⟩

/-- A fresh address is unallocated. -/
theorem fresh_ptr_not_alloc {s : HubState} (h : WF s) :
    mlookup s.nextPtr s.heap = none := by
  cases hv : mlookup s.nextPtr s.heap with
  | none => rfl
  | some c =>
    exact absurd (h.2.2.2.1 _ (mlookup_mem hv)).1 (lt_irrefl _)

/-- A fresh id is not a table key. -/
theorem fresh_id_not_key {s : HubState} (h : WF s) :
    mlookup s.nextId s.clients = none := by
  cases hv : mlookup s.nextId s.clients with
  | none => rfl
  | some p =>
    obtain ⟨c, hc, hid⟩ := table_deref h hv
    have := (h.2.2.2.1 _ (mlookup_mem hc)).2
    rw [hid] at this
    exact absurd this (lt_irrefl _)

/-- Well-formedness survives an id-preserving in-place update of one client. -/
theorem WF_heapMupd {s : HubState} (h : WF s) (f : Client → Client)
    (hf : ∀ c, (f c).id = c.id) (q : Nat) :
    WF { s with heap := mupd q f s.heap } := by
  obtain ⟨hco, htk, hhk, hfr, hrn⟩ := h
  refine ⟨?_, htk, ?_, ?_, hrn⟩
  · intro e he
    show (mlookup e.2 (mupd q f s.heap)).map Client.id = some e.1
    rw [mlookup_mupd_map Client.id f hf]
    exact hco e he
  · show (mkeys (mupd q f s.heap)).Nodup
    rw [mkeys_mupd]
    exact hhk
  · intro e he
    exact mupd_preserves_all f hfr (fun a b hb => by
      refine ⟨hb.1, ?_⟩
      show (f b).id < s.nextId
      rw [hf]
      exact hb.2) e he

/-- Well-formedness survives id-preserving updates of a batch of clients. -/
theorem WF_heapMupdAll {s : HubState} (h : WF s) (f : Client → Client)
    (hf : ∀ c, (f c).id = c.id) (ps : List Nat) :
    WF { s with heap := mupdAll f ps s.heap } := by
  obtain ⟨hco, htk, hhk, hfr, hrn⟩ := h
  refine ⟨?_, htk, ?_, ?_, hrn⟩
  · intro e he
    show (mlookup e.2 (mupdAll f ps s.heap)).map Client.id = some e.1
    rw [mlookup_mupdAll_map Client.id f hf]
    exact hco e he
  · show (mkeys (mupdAll f ps s.heap)).Nodup
    rw [mkeys_mupdAll]
    exact hhk
  · intro e he
    exact mupdAll_preserves_all f ps hfr (fun a b hb => by
      refine ⟨hb.1, ?_⟩
      show (f b).id < s.nextId
      rw [hf]
      exact hb.2) e he

theorem namesRoot_heapMupd {s : HubState} (h : namesRoot s) (f : Client → Client)
    (hf : ∀ c, (f c).name = c.name) (q : Nat) :
    namesRoot { s with heap := mupd q f s.heap } := by
  intro e he
  exact mupd_preserves_all f h (fun a b hb => by
    show (f b).name = "root"
    rw [hf]
    exact hb) e he

theorem namesRoot_heapMupdAll {s : HubState} (h : namesRoot s) (f : Client → Client)
    (hf : ∀ c, (f c).name = c.name) (ps : List Nat) :
    namesRoot { s with heap := mupdAll f ps s.heap } := by
  intro e he
  exact mupdAll_preserves_all f ps h (fun a b hb => by
    show (f b).name = "root"
    rw [hf]
    exact hb) e he

/-! ### Normal forms of the room and lifecycle operations -/

theorem handleJoinRoom_eq_some {s : HubState} {r : String} {mem : List Nat}
    (hm : mlookup r s.rooms = some mem) (p : Nat) :
    handleJoinRoom s p r = { s with rooms := mput r (sadd p mem) s.rooms } := by
  unfold handleJoinRoom createRoom joinRoom
  simp [hm]

theorem handleJoinRoom_eq_none {s : HubState} {r : String}
    (hm : mlookup r s.rooms = none) (p : Nat) :
    handleJoinRoom s p r = { s with rooms := mput r [p] s.rooms } := by
  unfold handleJoinRoom createRoom joinRoom
  simp [hm, mlookup_mput_self, sadd, mput_mput_self]

theorem handleLeaveRoom_eq_none {s : HubState} {r : String}
    (hm : mlookup r s.rooms = none) (p : Nat) :
    handleLeaveRoom s p r = s := by
  unfold handleLeaveRoom
  simp [hm]

theorem handleLeaveRoom_eq_empty {s : HubState} {r : String} {mem : List Nat}
    (hm : mlookup r s.rooms = some mem) {p : Nat} (he : sdel p mem = []) :
    handleLeaveRoom s p r = { s with rooms := mdel r s.rooms } := by
  unfold handleLeaveRoom
  simp [hm, he]

theorem handleLeaveRoom_eq_nonempty {s : HubState} {r : String} {mem : List Nat}
    (hm : mlookup r s.rooms = some mem) {p : Nat} (he : sdel p mem ≠ []) :
    handleLeaveRoom s p r = { s with rooms := mput r (sdel p mem) s.rooms } := by
  unfold handleLeaveRoom
  simp [hm, he]

theorem serveWsNew_eq (s : HubState) (conn : Nat) :
    serveWsNew s conn =
      { s with heap := mput s.nextPtr (newClient s.nextId conn) s.heap,
               clients := mput s.nextId s.nextPtr s.clients,
               nextPtr := s.nextPtr + 1, nextId := s.nextId + 1 } := by
  unfold serveWsNew register
  simp only [mlookup_mput_self]
  rfl

theorem serveWs_reconnect {s : HubState} (h : WF s) {cid p : Nat}
    (hm : mlookup cid s.clients = some p) (conn : Nat) :
    serveWs s (some cid) conn =
      { s with
        heap := mupd p (fun c => sendUndeliveredMsg { c with conn := conn }) s.heap } := by
  obtain ⟨c, hc, hcid⟩ := table_deref h hm
  unfold serveWs register
  simp only [hm, mlookup_mupd_self, hc, Option.map_some']
  rw [show (sendUndeliveredMsg { c with conn := conn }).id = cid from hcid, mput_self hm]

theorem serveWs_fresh_of_none (s : HubState) (conn : Nat) :
    serveWs s none conn = serveWsNew s conn := rfl

theorem serveWs_fresh_of_miss {s : HubState} {cid : Nat}
    (hm : mlookup cid s.clients = none) (conn : Nat) :
    serveWs s (some cid) conn = serveWsNew s conn := by
  unfold serveWs
  simp [hm]

/-! ### Preservation of well-formedness by every hub operation -/

theorem WF_roomsOnly {s : HubState} (h : WF s) {R : List (String × List Nat)}
    (hR : ∀ e ∈ R, e.2 ≠ []) : WF { s with rooms := R } :=
  ⟨h.1, h.2.1, h.2.2.1, h.2.2.2.1, hR⟩

theorem WF_handleJoinRoom {s : HubState} (h : WF s) (p : Nat) (r : String) :
    WF (handleJoinRoom s p r) := by
  cases hm : mlookup r s.rooms with
  | some mem =>
    rw [handleJoinRoom_eq_some hm]
    refine WF_roomsOnly h ?_
    intro e he
    rcases mem_mput_elim he with rfl | he'
    · intro hemp
      exact absurd (hemp ▸ mem_sadd_self p mem) (List.not_mem_nil p)
    · exact h.2.2.2.2 e he'
  | none =>
    rw [handleJoinRoom_eq_none hm]
    refine WF_roomsOnly h ?_
    intro e he
    rcases mem_mput_elim he with rfl | he'
    · simp
    · exact h.2.2.2.2 e he'

theorem WF_handleLeaveRoom {s : HubState} (h : WF s) (p : Nat) (r : String) :
    WF (handleLeaveRoom s p r) := by
  cases hm : mlookup r s.rooms with
  | none => rw [handleLeaveRoom_eq_none hm]; exact h
  | some mem =>
    by_cases he : sdel p mem = []
    · rw [handleLeaveRoom_eq_empty hm he]
      exact WF_roomsOnly h (fun e hee => h.2.2.2.2 e (mem_mdel_elim hee))
    · rw [handleLeaveRoom_eq_nonempty hm he]
      refine WF_roomsOnly h ?_
      intro e hee
      rcases mem_mput_elim hee with rfl | he'
      · exact he
      · exact h.2.2.2.2 e he'

theorem WF_hubBroadcast {s : HubState} (h : WF s) (m : Msg) :
    WF (hubBroadcast s m) :=
  WF_heapMupdAll h (pushMsg m) (fun _ => rfl) _

theorem WF_handleRoomBroadcast {s : HubState} (h : WF s) (r : String) (m : Msg) :
    WF (handleRoomBroadcast s r m) := by
  unfold handleRoomBroadcast
  cases hm : mlookup r s.rooms with
  | none => exact h
  | some mem => exact WF_heapMupdAll h (pushMsg m) (fun _ => rfl) mem

theorem WF_handlePrivateMessage {s : HubState} (h : WF s) (n : String) (m : Msg) :
    WF (handlePrivateMessage s n m) :=
  WF_heapMupdAll h (pushMsg m) (fun _ => rfl) _

theorem WF_writePumpFail {s : HubState} (h : WF s) (p : Nat) (m : Msg) :
    WF (writePumpFail s p m) :=
  WF_heapMupd h (fun c => addUndeliveredMsg c m) (fun _ => rfl) p

theorem WF_enqueueTo {s : HubState} (h : WF s) (p : Nat) (m : Msg) :
    WF (enqueueTo s p m) :=
  WF_heapMupd h (pushMsg m) (fun _ => rfl) p

theorem unregister_eq_dangling {s : HubState} {p : Nat}
    (hc : mlookup p s.heap = none) : unregister s p = s := by
  unfold unregister
  simp [hc]

theorem unregister_eq_absent {s : HubState} {p : Nat} {c : Client}
    (hc : mlookup p s.heap = some c)
    (ht : mlookup c.id s.clients = none) : unregister s p = s := by
  unfold unregister
  simp [hc, ht]

theorem unregister_eq_present {s : HubState} {p : Nat} {c : Client}
    (hc : mlookup p s.heap = some c) {q : Nat}
    (ht : mlookup c.id s.clients = some q) :
    unregister s p =
      { s with clients := mdel c.id s.clients, heap := mupd p closeSend s.heap } := by
  unfold unregister
  simp [hc, ht]

theorem WF_unregister {s : HubState} (h : WF s) (p : Nat) :
    WF (unregister s p) := by
  cases hc : mlookup p s.heap with
  | none => rw [unregister_eq_dangling hc]; exact h
  | some c =>
    cases ht : mlookup c.id s.clients with
    | none => rw [unregister_eq_absent hc ht]; exact h
    | some q =>
      rw [unregister_eq_present hc ht]
      obtain ⟨hco, htk, hhk, hfr, hrn⟩ := h
      refine ⟨?_, nodup_mkeys_mdel htk, ?_, ?_, hrn⟩
      · intro e he
        show (mlookup e.2 (mupd p closeSend s.heap)).map Client.id = some e.1
        rw [mlookup_mupd_map Client.id closeSend (fun _ => rfl)]
        exact hco e (mem_mdel_elim he)
      · show (mkeys (mupd p closeSend s.heap)).Nodup
        rw [mkeys_mupd]
        exact hhk
      · intro e he
        exact mupd_preserves_all closeSend hfr (fun a b hb => ⟨hb.1, hb.2⟩) e he

theorem WF_serveWsNew {s : HubState} (h : WF s) (conn : Nat) :
    WF (serveWsNew s conn) := by
  rw [serveWsNew_eq]
  have hfp : mlookup s.nextPtr s.heap = none := fresh_ptr_not_alloc h
  obtain ⟨hco, htk, hhk, hfr, hrn⟩ := h
  refine ⟨?_, nodup_mkeys_mput htk, nodup_mkeys_mput hhk, ?_, hrn⟩
  · intro e he
    rcases mem_mput_elim he with rfl | he'
    · show (mlookup s.nextPtr (mput s.nextPtr (newClient s.nextId conn) s.heap)).map
          Client.id = some s.nextId
      rw [mlookup_mput_self]
      rfl
    · have hcoe := hco e he'
      obtain ⟨c, hc, _⟩ := Option.map_eq_some'.mp hcoe
      have hne : e.2 ≠ s.nextPtr := by
        intro heq
        rw [heq, hfp] at hc
        cases hc
      show (mlookup e.2 (mput s.nextPtr (newClient s.nextId conn) s.heap)).map
          Client.id = some e.1
      rw [mlookup_mput_ne hne]
      exact hcoe
  · intro e he
    rcases mem_mput_elim he with rfl | he'
    · exact ⟨Nat.lt_succ_self _, Nat.lt_succ_self _⟩
    · have hb := hfr e he'
      exact ⟨Nat.lt_succ_of_lt hb.1, Nat.lt_succ_of_lt hb.2⟩

theorem WF_serveWs {s : HubState} (h : WF s) (cid : Option Nat) (conn : Nat) :
    WF (serveWs s cid conn) := by
  cases cid with
  | none => exact WF_serveWsNew h conn
  | some cid =>
    cases hm : mlookup cid s.clients with
    | none =>
      rw [serveWs_fresh_of_miss hm]
      exact WF_serveWsNew h conn
    | some p =>
      rw [serveWs_reconnect h hm]
      exact WF_heapMupd h (fun c => sendUndeliveredMsg { c with conn := conn }) (fun _ => rfl) p

/-- Every hub operation preserves well-formedness. -/
theorem WF_step {s : HubState} (h : WF s) (op : Op) : WF (step s op) := by
  cases op with
  | connect cid conn => exact WF_serveWs h cid conn
  | unreg p => exact WF_unregister h p
  | brdcst m => exact WF_hubBroadcast h m
  | join p r => exact WF_handleJoinRoom h p r
  | leave p r => exact WF_handleLeaveRoom h p r
  | roomMsg r m => exact WF_handleRoomBroadcast h r m
  | privMsg n m => exact WF_handlePrivateMessage h n m
  | wpFail p m => exact WF_writePumpFail h p m

/-- Well-formedness holds along every trace from a well-formed state. -/
theorem WF_run {s : HubState} (h : WF s) (ops : List Op) : WF (run s ops) := by
  induction ops generalizing s with
  | nil => exact h
  | cons op ops ih => exact ih (WF_step h op)

/-! ### Preservation of the constant display name by every hub operation -/

theorem register_heap (s : HubState) (p : Nat) : (register s p).heap = s.heap := by
  unfold register
  cases mlookup p s.heap <;> rfl

theorem register_rooms (s : HubState) (p : Nat) : (register s p).rooms = s.rooms := by
  unfold register
  cases mlookup p s.heap <;> rfl

theorem namesRoot_register {s : HubState} (h : namesRoot s) (p : Nat) :
    namesRoot (register s p) := by
  intro e he
  rw [register_heap] at he
  exact h e he

theorem namesRoot_serveWs {s : HubState} (h : namesRoot s) (cid : Option Nat)
    (conn : Nat) : namesRoot (serveWs s cid conn) := by
  cases cid with
  | none =>
    rw [serveWs_fresh_of_none, serveWsNew_eq]
    intro e he
    rcases mem_mput_elim he with rfl | he'
    · rfl
    · exact h e he'
  | some cid =>
    cases hm : mlookup cid s.clients with
    | none =>
      rw [serveWs_fresh_of_miss hm, serveWsNew_eq]
      intro e he
      rcases mem_mput_elim he with rfl | he'
      · rfl
      · exact h e he'
    | some p =>
      have hs : serveWs s (some cid) conn =
          register
            { s with
              heap := mupd p (fun c => sendUndeliveredMsg { c with conn := conn }) s.heap }
            p := by
        unfold serveWs
        simp only [hm]
      rw [hs]
      exact namesRoot_register
        (namesRoot_heapMupd h (fun c => sendUndeliveredMsg { c with conn := conn })
          (fun _ => rfl) p) p

theorem namesRoot_unregister {s : HubState} (h : namesRoot s) (p : Nat) :
    namesRoot (unregister s p) := by
  cases hc : mlookup p s.heap with
  | none => rw [unregister_eq_dangling hc]; exact h
  | some c =>
    cases ht : mlookup c.id s.clients with
    | none => rw [unregister_eq_absent hc ht]; exact h
    | some q =>
      rw [unregister_eq_present hc ht]
      exact namesRoot_heapMupd h closeSend (fun _ => rfl) p

theorem namesRoot_handleJoinRoom {s : HubState} (h : namesRoot s) (p : Nat)
    (r : String) : namesRoot (handleJoinRoom s p r) := by
  cases hm : mlookup r s.rooms with
  | some mem => rw [handleJoinRoom_eq_some hm]; exact h
  | none => rw [handleJoinRoom_eq_none hm]; exact h

theorem namesRoot_handleLeaveRoom {s : HubState} (h : namesRoot s) (p : Nat)
    (r : String) : namesRoot (handleLeaveRoom s p r) := by
  cases hm : mlookup r s.rooms with
  | none => rw [handleLeaveRoom_eq_none hm]; exact h
  | some mem =>
    by_cases he : sdel p mem = []
    · rw [handleLeaveRoom_eq_empty hm he]; exact h
    · rw [handleLeaveRoom_eq_nonempty hm he]; exact h

theorem namesRoot_handleRoomBroadcast {s : HubState} (h : namesRoot s)
    (r : String) (m : Msg) : namesRoot (handleRoomBroadcast s r m) := by
  unfold handleRoomBroadcast
  cases hm : mlookup r s.rooms with
  | none => exact h
  | some mem => exact namesRoot_heapMupdAll h (pushMsg m) (fun _ => rfl) mem

/-- Every hub operation preserves the constant display name `"root"` of
every allocated client; new clients are created with name `"root"`. -/
theorem namesRoot_step {s : HubState} (h : namesRoot s) (op : Op) :
    namesRoot (step s op) := by
  cases op with
  | connect cid conn => exact namesRoot_serveWs h cid conn
  | unreg p => exact namesRoot_unregister h p
  | brdcst m => exact namesRoot_heapMupdAll h (pushMsg m) (fun _ => rfl) _
  | join p r => exact namesRoot_handleJoinRoom h p r
  | leave p r => exact namesRoot_handleLeaveRoom h p r
  | roomMsg r m => exact namesRoot_handleRoomBroadcast h r m
  | privMsg n m => exact namesRoot_heapMupdAll h (pushMsg m) (fun _ => rfl) _
  | wpFail p m => exact namesRoot_heapMupd h (fun c => addUndeliveredMsg c m) (fun _ => rfl) p

theorem namesRoot_run {s : HubState} (h : namesRoot s) (ops : List Op) :
    namesRoot (run s ops) := by
  induction ops generalizing s with
  | nil => exact h
  | cons op ops ih => exact ih (namesRoot_step h op)

/-! ### Effect lemmas for the fan-out operations -/

/-- A global broadcast enqueues the payload on every registered connection
(blocking-send revision: no connection is skipped). -/
theorem hubBroadcast_send {s : HubState} (h : WF s) {cid p : Nat}
    (hm : mlookup cid s.clients = some p) {c : Client}
    (hc : mlookup p s.heap = some c) (m : Msg) :
    mlookup p (hubBroadcast s m).heap = some (pushMsg m c) := by
  show mlookup p (mupdAll (pushMsg m) (s.clients.map Prod.snd) s.heap) = _
  rw [mlookup_mupdAll_mem (table_snd_nodup h)
    (List.mem_map_of_mem Prod.snd (mlookup_mem hm)), hc]
  rfl

/-- A pointer with no table entry is untouched by a global broadcast. -/
theorem hubBroadcast_other {s : HubState} {p : Nat}
    (hp : p ∉ s.clients.map Prod.snd) (m : Msg) :
    mlookup p (hubBroadcast s m).heap = mlookup p s.heap := by
  show mlookup p (mupdAll (pushMsg m) (s.clients.map Prod.snd) s.heap) = _
  rw [mlookup_mupdAll_notMem hp]

theorem hubBroadcast_clients (s : HubState) (m : Msg) :
    (hubBroadcast s m).clients = s.clients := rfl

/-- When every client is named `"root"`, a private message addressed to
`"root"` reaches every registered connection. -/
theorem handlePrivateMessage_root_send {s : HubState} (h : WF s)
    (hn : namesRoot s) {cid p : Nat} (hm : mlookup cid s.clients = some p)
    {c : Client} (hc : mlookup p s.heap = some c) (b : Msg) :
    mlookup p (handlePrivateMessage s "root" b).heap = some (pushMsg b c) := by
  unfold handlePrivateMessage
  have hroot : c.name = "root" := hn (p, c) (mlookup_mem hc)
  have hmem : p ∈ (s.clients.map Prod.snd).filter (fun q =>
      match mlookup q s.heap with
      | some cl => decide (cl.name = "root")
      | none => false) := by
    rw [List.mem_filter]
    refine ⟨List.mem_map_of_mem Prod.snd (mlookup_mem hm), ?_⟩
    rw [hc]
    simpa using hroot
  rw [mlookup_mupdAll_mem (List.Nodup.filter _ (table_snd_nodup h)) hmem, hc]
  rfl

/-- A private message addressed to any name other than `"root"` matches no
client and leaves the state unchanged. -/
theorem handlePrivateMessage_other {s : HubState} (hn : namesRoot s)
    {n : String} (hne : n ≠ "root") (b : Msg) :
    handlePrivateMessage s n b = s := by
  unfold handlePrivateMessage
  have hnil : (s.clients.map Prod.snd).filter (fun q =>
      match mlookup q s.heap with
      | some cl => decide (cl.name = n)
      | none => false) = [] := by
    rw [List.filter_eq_nil]
    intro q hq
    cases hcq : mlookup q s.heap with
    | none => simp
    | some cl =>
      have : cl.name = "root" := hn (q, cl) (mlookup_mem hcq)
      simp [this, Ne.symm hne]
  rw [hnil]
  rfl

/-! ### The undelivered backlog: bounded FIFO with oldest-first eviction -/

/-- The `n` most recent elements of `l` (all of `l` when `l` is shorter). -/
def lastN {α : Type} (n : Nat) (l : List α) : List α := l.drop (l.length - n)

theorem addUndelivered_length_le {b : List Msg} {m : Msg}
    (hb : b.length ≤ maxUndeliveredMsg) :
    (addUndelivered b m).length ≤ maxUndeliveredMsg := by
  unfold addUndelivered maxUndeliveredMsg at *
  by_cases hc : 100 ≤ b.length
  · simp only [hc, if_true, List.length_append, List.length_drop, List.length_singleton]
    omega
  · simp only [hc, if_false, List.length_append, List.length_singleton]
    omega

theorem addUndelivered_evict {b : List Msg} (hb : maxUndeliveredMsg ≤ b.length)
    (m : Msg) : addUndelivered b m = b.drop 1 ++ [m] := by
  unfold addUndelivered
  rw [if_pos hb]

theorem addUndelivered_room {b : List Msg} (hb : b.length < maxUndeliveredMsg)
    (m : Msg) : addUndelivered b m = b ++ [m] := by
  unfold addUndelivered
  rw [if_neg (by omega)]

/-- Folding the backlog-append over any message sequence from a backlog
within capacity retains exactly the `maxUndeliveredMsg` most recent
messages, in arrival order. -/
theorem foldl_addUndelivered (ms : List Msg) :
    ∀ b : List Msg, b.length ≤ maxUndeliveredMsg →
      ms.foldl addUndelivered b = lastN maxUndeliveredMsg (b ++ ms) := by
  induction ms with
  | nil =>
    intro b hb
    simp [lastN, Nat.sub_eq_zero_of_le hb]
  | cons m ms ih =>
    intro b hb
    rw [List.foldl_cons, ih _ (addUndelivered_length_le hb)]
    by_cases hc : maxUndeliveredMsg ≤ b.length
    · have heq : b.length = maxUndeliveredMsg := le_antisymm hb hc
      rw [addUndelivered_evict hc]
      unfold lastN maxUndeliveredMsg at *
      have hb1 : 1 ≤ b.length := by omega
      have e1 : ((b.drop 1 ++ [m]) ++ ms).length - 100 = ms.length := by
        simp only [List.length_append, List.length_drop, List.length_singleton]
        omega
      have e2 : (b ++ m :: ms).length - 100 = 1 + ms.length := by
        simp only [List.length_append, List.length_cons]
        omega
      rw [e1, e2]
      have e3 : (b.drop 1 ++ [m]) ++ ms = b.drop 1 ++ m :: ms := by simp
      have e4 : (b ++ m :: ms).drop (1 + ms.length) =
          ((b ++ m :: ms).drop 1).drop ms.length := by
        rw [List.drop_drop]
        all_goals (congr 1; omega)
      have e5 : (b ++ m :: ms).drop 1 = b.drop 1 ++ m :: ms :=
        List.drop_append_of_le_length hb1
      rw [e3, e4, e5]
    · rw [addUndelivered_room (by omega)]
      have e3 : (b ++ [m]) ++ ms = b ++ m :: ms := by simp
      rw [e3]

/-! ### The read loop's dispatch equations -/

theorem isPrefixOf_cons_ne {a b : Char} {p q l : List Char} (hab : a ≠ b)
    (hp : List.isPrefixOf (a :: p) l = true) :
    List.isPrefixOf (b :: q) l = false := by
  cases l with
  | nil => simp [List.isPrefixOf] at hp
  | cons c t =>
    simp only [List.isPrefixOf, Bool.and_eq_true, beq_iff_eq] at hp
    simp only [List.isPrefixOf, Bool.and_eq_false_iff]
    exact Or.inl (by simp; exact fun hbc => hab (hp.1.trans hbc.symm))

theorem handleJoinRoom_heap (s : HubState) (p : Nat) (r : String) :
    (handleJoinRoom s p r).heap = s.heap := by
  cases hm : mlookup r s.rooms with
  | some mem => rw [handleJoinRoom_eq_some hm]
  | none => rw [handleJoinRoom_eq_none hm]

theorem handleJoinRoom_clients (s : HubState) (p : Nat) (r : String) :
    (handleJoinRoom s p r).clients = s.clients := by
  cases hm : mlookup r s.rooms with
  | some mem => rw [handleJoinRoom_eq_some hm]
  | none => rw [handleJoinRoom_eq_none hm]

theorem handleLeaveRoom_heap (s : HubState) (p : Nat) (r : String) :
    (handleLeaveRoom s p r).heap = s.heap := by
  cases hm : mlookup r s.rooms with
  | none => rw [handleLeaveRoom_eq_none hm]
  | some mem =>
    by_cases he : sdel p mem = []
    · rw [handleLeaveRoom_eq_empty hm he]
    · rw [handleLeaveRoom_eq_nonempty hm he]

theorem handleLeaveRoom_clients (s : HubState) (p : Nat) (r : String) :
    (handleLeaveRoom s p r).clients = s.clients := by
  cases hm : mlookup r s.rooms with
  | none => rw [handleLeaveRoom_eq_none hm]
  | some mem =>
    by_cases he : sdel p mem = []
    · rw [handleLeaveRoom_eq_empty hm he]
    · rw [handleLeaveRoom_eq_nonempty hm he]

theorem splitN2_no_sep {l : List Char} (h : ∀ c ∈ l, c ≠ ' ') :
    splitN2 l = [l] := by
  unfold splitN2
  have hb : l.dropWhile (fun c => decide (c ≠ ' ')) = [] := by
    rw [List.dropWhile_eq_nil_iff]
    intro x hx
    simp [h x hx]
  have ha : l.takeWhile (fun c => decide (c ≠ ' ')) = l := by
    rw [List.takeWhile_eq_self_iff]
    intro x hx
    simp [h x hx]
  simp only [ha, hb]
  rfl

theorem handleFrame_eq_join {s : HubState} {p : Nat} {raw : String}
    (h : List.isPrefixOf "join_room:".data (normalizeFrame raw).data = true) :
    handleFrame s p raw =
      .ok (enqueueTo
        (handleJoinRoom s p (String.mk ((normalizeFrame raw).data.drop 10))) p
        ("join_room_success:" ++ String.mk ((normalizeFrame raw).data.drop 10))) := by
  unfold handleFrame parseFrame
  simp [h]

theorem not_join_of_room {n : List Char}
    (h : List.isPrefixOf "room_message:".data n = true) :
    List.isPrefixOf "join_room:".data n = false := by
  have h1 : "room_message:".data = 'r' :: "oom_message:".data := by decide
  have h2 : "join_room:".data = 'j' :: "oin_room:".data := by decide
  rw [h1] at h
  rw [h2]
  exact isPrefixOf_cons_ne (by decide) h

theorem handleFrame_eq_room {s : HubState} {p : Nat} {raw : String}
    (h : List.isPrefixOf "room_message:".data (normalizeFrame raw).data = true)
    {rn bd : List Char}
    (hsplit : splitN2 ((normalizeFrame raw).data.drop 13) = [rn, bd]) :
    handleFrame s p raw =
      .ok (handleRoomBroadcast s (String.mk rn) (String.mk bd)) := by
  unfold handleFrame parseFrame
  simp [h, not_join_of_room h, hsplit]

theorem handleFrame_eq_room_panic {s : HubState} {p : Nat} {raw : String}
    (h : List.isPrefixOf "room_message:".data (normalizeFrame raw).data = true)
    (hns : ∀ c ∈ (normalizeFrame raw).data.drop 13, c ≠ ' ') :
    handleFrame s p raw = .error "panic: runtime error: index out of range" := by
  unfold handleFrame parseFrame
  simp [h, not_join_of_room h, splitN2_no_sep hns]

theorem not_join_of_leave {n : List Char}
    (h : List.isPrefixOf "leave_room:".data n = true) :
    List.isPrefixOf "join_room:".data n = false := by
  have h1 : "leave_room:".data = 'l' :: "eave_room:".data := by decide
  have h2 : "join_room:".data = 'j' :: "oin_room:".data := by decide
  rw [h1] at h
  rw [h2]
  exact isPrefixOf_cons_ne (by decide) h

theorem not_room_of_leave {n : List Char}
    (h : List.isPrefixOf "leave_room:".data n = true) :
    List.isPrefixOf "room_message:".data n = false := by
  have h1 : "leave_room:".data = 'l' :: "eave_room:".data := by decide
  have h2 : "room_message:".data = 'r' :: "oom_message:".data := by decide
  rw [h1] at h
  rw [h2]
  exact isPrefixOf_cons_ne (by decide) h

theorem handleFrame_eq_leave {s : HubState} {p : Nat} {raw : String}
    (h : List.isPrefixOf "leave_room:".data (normalizeFrame raw).data = true) :
    handleFrame s p raw =
      .ok (enqueueTo
        (handleLeaveRoom s p (String.mk ((normalizeFrame raw).data.drop 11))) p
        ("leave_room_success:" ++ String.mk ((normalizeFrame raw).data.drop 11))) := by
  unfold handleFrame parseFrame
  simp [h, not_join_of_leave h, not_room_of_leave h]

theorem not_join_of_priv {n : List Char}
    (h : List.isPrefixOf "private_message:".data n = true) :
    List.isPrefixOf "join_room:".data n = false := by
  have h1 : "private_message:".data = 'p' :: "rivate_message:".data := by decide
  have h2 : "join_room:".data = 'j' :: "oin_room:".data := by decide
  rw [h1] at h
  rw [h2]
  exact isPrefixOf_cons_ne (by decide) h

theorem not_room_of_priv {n : List Char}
    (h : List.isPrefixOf "private_message:".data n = true) :
    List.isPrefixOf "room_message:".data n = false := by
  have h1 : "private_message:".data = 'p' :: "rivate_message:".data := by decide
  have h2 : "room_message:".data = 'r' :: "oom_message:".data := by decide
  rw [h1] at h
  rw [h2]
  exact isPrefixOf_cons_ne (by decide) h

theorem not_leave_of_priv {n : List Char}
    (h : List.isPrefixOf "private_message:".data n = true) :
    List.isPrefixOf "leave_room:".data n = false := by
  have h1 : "private_message:".data = 'p' :: "rivate_message:".data := by decide
  have h2 : "leave_room:".data = 'l' :: "eave_room:".data := by decide
  rw [h1] at h
  rw [h2]
  exact isPrefixOf_cons_ne (by decide) h

theorem handleFrame_eq_priv {s : HubState} {p : Nat} {raw : String}
    (h : List.isPrefixOf "private_message:".data (normalizeFrame raw).data = true)
    {rc bd : List Char}
    (hsplit : splitN2 ((normalizeFrame raw).data.drop 16) = [rc, bd]) :
    handleFrame s p raw =
      .ok (handlePrivateMessage s (String.mk rc) (String.mk bd)) := by
  unfold handleFrame parseFrame
  simp [h, not_join_of_priv h, not_room_of_priv h, not_leave_of_priv h, hsplit]

theorem handleFrame_eq_priv_panic {s : HubState} {p : Nat} {raw : String}
    (h : List.isPrefixOf "private_message:".data (normalizeFrame raw).data = true)
    (hns : ∀ c ∈ (normalizeFrame raw).data.drop 16, c ≠ ' ') :
    handleFrame s p raw = .error "panic: runtime error: index out of range" := by
  unfold handleFrame parseFrame
  simp [h, not_join_of_priv h, not_room_of_priv h, not_leave_of_priv h,
    splitN2_no_sep hns]

theorem handleFrame_eq_global {s : HubState} {p : Nat} {raw : String}
    (h1 : List.isPrefixOf "join_room:".data (normalizeFrame raw).data = false)
    (h2 : List.isPrefixOf "room_message:".data (normalizeFrame raw).data = false)
    (h3 : List.isPrefixOf "leave_room:".data (normalizeFrame raw).data = false)
    (h4 : List.isPrefixOf "private_message:".data (normalizeFrame raw).data = false) :
    handleFrame s p raw = .ok (hubBroadcast s (normalizeFrame raw)) := by
  unfold handleFrame parseFrame
  simp [h1, h2, h3, h4]

/-! ### The no-dangling-reference property -/

theorem mput_absent_append {α β : Type} [DecidableEq α] {k : α} {l : List (α × β)}
    (h : mlookup k l = none) (v : β) : mput k v l = l ++ [(k, v)] := by
  induction l with
  | nil => simp [mput]
  | cons hd t ih =>
    obtain ⟨a, b⟩ := hd
    by_cases ha : a = k
    · subst ha
      simp [mlookup] at h
    · simp [mlookup, ha] at h
      simp [mput, ha, ih h]


/-- Every connection appearing in some room's membership set is registered
in the connection table (the spec's "no dangling references" direction). -/
def noDangling (s : HubState) : Prop :=
  ∀ e ∈ s.rooms, ∀ q ∈ e.2, q ∈ s.clients.map Prod.snd

instance (s : HubState) : Decidable (noDangling s) := by
  unfold noDangling
  infer_instance

/-- A sample reachable state: one client (pointer 0, id 0) in room
`"lobby"`. -/
def sample1 : HubState :=
  run initState [Op.connect none 0, Op.join 0 "lobby"]

/-- A sample reachable state: one registered client with a two-message
undelivered backlog, its transport already broken. -/
def sampleBacklog : HubState :=
  run initState [Op.connect none 0, Op.wpFail 0 "m1", Op.wpFail 0 "m2"]



/-- C1, counterexample.  From the empty hub, register a connection, join it
to room `"r"`, then unregister it: the reachable state keeps the connection
in `"r"`'s membership set while the connection table is empty, refuting the
claimed if-and-only-if invariant (unregister never touches the room
tables). -/
theorem C1_counterexample :
    mlookup "r" (run initState [Op.connect none 0, Op.join 0 "r", Op.unreg 0]).rooms =
        some [0] ∧
      (run initState [Op.connect none 0, Op.join 0 "r", Op.unreg 0]).clients = [] := by
  decide

/-- C1, amended.  The no-dangling direction (every connection in a room's
membership is in the connection table) is preserved by register (`serveWs`),
broadcast, join-room (for a registered joiner), leave-room, room broadcast,
private message and the write-pump failure — but not by unregister, which
removes the table entry while leaving every room membership in place. -/
theorem C1_noDangling_preservation (s : HubState) (h : WF s) (hnd : noDangling s) :
    (∀ cid conn, noDangling (serveWs s cid conn)) ∧
    (∀ m, noDangling (hubBroadcast s m)) ∧
    (∀ p r, p ∈ s.clients.map Prod.snd → noDangling (handleJoinRoom s p r)) ∧
    (∀ p r, noDangling (handleLeaveRoom s p r)) ∧
    (∀ r m, noDangling (handleRoomBroadcast s r m)) ∧
    (∀ n m, noDangling (handlePrivateMessage s n m)) ∧
    (∀ p m, noDangling (writePumpFail s p m)) ∧
    (∀ p, (unregister s p).rooms = s.rooms) := by
  have hmono : ∀ conn, noDangling (serveWsNew s conn) := by
    intro conn
    rw [serveWsNew_eq]
    intro e he q hq
    have hgrow : mput s.nextId s.nextPtr s.clients =
        s.clients ++ [(s.nextId, s.nextPtr)] :=
      mput_absent_append (fresh_id_not_key h) _
    rw [hgrow, List.map_append]
    exact List.mem_append_left _ (hnd e he q hq)
  refine ⟨?_, fun m => hnd, ?_, ?_, ?_, fun n m => hnd, fun p m => hnd, ?_⟩
  · intro cid conn
    cases cid with
    | none => exact hmono conn
    | some cid =>
      cases hm : mlookup cid s.clients with
      | none =>
        rw [serveWs_fresh_of_miss hm]
        exact hmono conn
      | some p =>
        rw [serveWs_reconnect h hm]
        exact hnd
  · intro p r hp
    cases hm : mlookup r s.rooms with
    | some mem =>
      rw [handleJoinRoom_eq_some hm]
      intro e he q hq
      rcases mem_mput_elim he with rfl | he'
      · rcases (mem_sadd mem).mp hq with hq' | rfl
        · exact hnd (r, mem) (mlookup_mem hm) q hq'
        · exact hp
      · exact hnd e he' q hq
    | none =>
      rw [handleJoinRoom_eq_none hm]
      intro e he q hq
      rcases mem_mput_elim he with rfl | he'
      · simp at hq
        subst hq
        exact hp
      · exact hnd e he' q hq
  · intro p r
    cases hm : mlookup r s.rooms with
    | none => rw [handleLeaveRoom_eq_none hm]; exact hnd
    | some mem =>
      by_cases he : sdel p mem = []
      · rw [handleLeaveRoom_eq_empty hm he]
        intro e hee q hq
        exact hnd e (mem_mdel_elim hee) q hq
      · rw [handleLeaveRoom_eq_nonempty hm he]
        intro e hee q hq
        rcases mem_mput_elim hee with rfl | he'
        · exact hnd (r, mem) (mlookup_mem hm) q ((mem_sdel mem).mp hq).1
        · exact hnd e he' q hq
  · intro r m
    unfold handleRoomBroadcast
    cases hm : mlookup r s.rooms with
    | none => exact hnd
    | some mem => exact hnd
  · intro p
    cases hc : mlookup p s.heap with
    | none => rw [unregister_eq_dangling hc]
    | some c =>
      cases ht : mlookup c.id s.clients with
      | none => rw [unregister_eq_absent hc ht]
      | some q => rw [unregister_eq_present hc ht]

/-- C1, witness for the amended preservation statement at the sample state. -/
theorem C1_noDangling_preservation_witness :
    noDangling (handleJoinRoom sample1 0 "den") ∧
      (unregister sample1 0).rooms = sample1.rooms :=
  ⟨(C1_noDangling_preservation sample1 (by decide) (by decide)).2.2.1 0 "den"
      (by decide),
    (C1_noDangling_preservation sample1 (by decide) (by decide)).2.2.2.2.2.2.2 0⟩



/-- C2, counterexample.  After registering a connection, joining it to room
`"r"` and unregistering it, the room table is exactly what it was before
the unregister — the connection was *not* removed from the room it belongs
to, refuting the claim's "removes c … from every room c belongs to". -/
theorem C2_counterexample :
    (run initState [Op.connect none 0, Op.join 0 "r", Op.unreg 0]).rooms =
        (run initState [Op.connect none 0, Op.join 0 "r"]).rooms ∧
      0 ∉ ((run initState [Op.connect none 0, Op.join 0 "r", Op.unreg 0]).clients.map
        Prod.snd) := by
  decide

/-- C2, amended.  Unregister removes the connection from the table and
closes its outbound queue, but leaves every room membership in place
(rooms are untouched); unregistering a connection whose id is already
absent from the table is a no-op. -/
theorem C2_unregister_behavior (s : HubState) {p : Nat} {c : Client}
    (hc : mlookup p s.heap = some c) :
    (∀ q, mlookup c.id s.clients = some q →
      unregister s p =
          { s with clients := mdel c.id s.clients, heap := mupd p closeSend s.heap } ∧
        mlookup c.id (unregister s p).clients = none ∧
        mlookup p (unregister s p).heap = some (closeSend c) ∧
        (unregister s p).rooms = s.rooms) ∧
    (mlookup c.id s.clients = none → unregister s p = s) := by
  constructor
  · intro q ht
    rw [unregister_eq_present hc ht]
    refine ⟨rfl, ?_, ?_, rfl⟩
    · show mlookup c.id (mdel c.id s.clients) = none
      exact mlookup_mdel_self c.id s.clients
    · show mlookup p (mupd p closeSend s.heap) = some (closeSend c)
      rw [mlookup_mupd_self, hc]
      rfl
  · intro ht
    exact unregister_eq_absent hc ht

/-- C2, witness at the sample state (client 0 registered and in `"lobby"`). -/
theorem C2_unregister_behavior_witness :
    mlookup 0 (unregister sample1 0).clients = none ∧
      (unregister sample1 0).rooms = sample1.rooms :=
  ⟨((@C2_unregister_behavior sample1 0 (newClient 0 0) (by decide)).1 0
      (by decide)).2.1,
    ((@C2_unregister_behavior sample1 0 (newClient 0 0) (by decide)).1 0
      (by decide)).2.2.2⟩

end Ctx

namespace Ctx

/-- C3.  A `room_message:` or `private_message:` frame whose remainder
contains no space makes `readPump` index `SplitN(...)[1]` out of range: the
embedded read-loop iteration evaluates to the panic outcome, not to a
logged-and-dropped frame with the connection left open.  (In Go the
unrecovered panic in the per-connection goroutine terminates the whole
process.) -/
theorem C3_malformed_frame_panics :
    handleFrame sample1 0 "room_message:lobby" =
        Except.error "panic: runtime error: index out of range" ∧
      handleFrame sample1 0 "private_message:alice" =
        Except.error "panic: runtime error: index out of range" :=
  ⟨rfl, rfl⟩

/-- C5, counterexample.  A connection (pointer 0, id 0) accumulates the
backlog `["m1"]` (k = 1 ≤ 100) while its transport is broken; its read loop
then unregisters it; a reconnect supplying the same identifier 0 misses the
table, so a brand-new client (id 1) is created with an empty queue: none of
the k backlogged messages is enqueued, and they stay stranded on the old
heap entry. -/
theorem C5_counterexample :
    (run initState [Op.connect none 0, Op.wpFail 0 "m1", Op.unreg 0,
        Op.connect (some 0) 1]).clients = [(1, 1)] ∧
      (mlookup 1 (run initState [Op.connect none 0, Op.wpFail 0 "m1", Op.unreg 0,
        Op.connect (some 0) 1]).heap).map Client.send = some [] ∧
      (mlookup 0 (run initState [Op.connect none 0, Op.wpFail 0 "m1", Op.unreg 0,
        Op.connect (some 0) 1]).heap).map Client.undeliveredMsg = some ["m1"] := by
  decide

/-- C5, amended.  Provided the connection's table entry still exists when
the reconnect arrives (its unregister has not yet been processed), the
replay is exact: the k ≤ 100 backlogged messages are appended to the
outbound queue in their original order, the backlog is cleared, room and
table state are untouched, and any message broadcast after the reconnection
is enqueued after the replayed ones. -/
theorem C5_reconnect_replay {s : HubState} (h : WF s) {cid p : Nat} {c : Client}
    (hm : mlookup cid s.clients = some p) (hc : mlookup p s.heap = some c)
    (hk : c.undeliveredMsg.length ≤ maxUndeliveredMsg) (conn : Nat) :
    mlookup p (serveWs s (some cid) conn).heap =
        some { c with conn := conn, send := c.send ++ c.undeliveredMsg,
                      undeliveredMsg := [] } ∧
      (serveWs s (some cid) conn).clients = s.clients ∧
      (serveWs s (some cid) conn).rooms = s.rooms ∧
      ∀ b, mlookup p (hubBroadcast (serveWs s (some cid) conn) b).heap =
        some { c with conn := conn, send := (c.send ++ c.undeliveredMsg) ++ [b],
                      undeliveredMsg := [] } := by
  have hs := serveWs_reconnect h hm conn
  refine ⟨?_, by rw [hs], by rw [hs], ?_⟩
  · rw [hs]
    show mlookup p (mupd p _ s.heap) = _
    rw [mlookup_mupd_self, hc]
    rfl
  · intro b
    have h' : WF (serveWs s (some cid) conn) := WF_serveWs h (some cid) conn
    have hm' : mlookup cid (serveWs s (some cid) conn).clients = some p := by
      rw [hs]
      exact hm
    have hc' : mlookup p (serveWs s (some cid) conn).heap =
        some { c with conn := conn, send := c.send ++ c.undeliveredMsg,
                      undeliveredMsg := [] } := by
      rw [hs]
      show mlookup p (mupd p _ s.heap) = _
      rw [mlookup_mupd_self, hc]
      rfl
    rw [hubBroadcast_send h' hm' hc' b]
    rfl

/-- C5, witness: replaying the two-message backlog of the sample state. -/
theorem C5_reconnect_replay_witness :
    mlookup 0 (serveWs sampleBacklog (some 0) 7).heap =
      some { name := "root", id := 0, conn := 7, send := ["m1", "m2"],
             sendClosed := false, undeliveredMsg := [] } :=
  (@C5_reconnect_replay sampleBacklog (by decide) 0 0
      { name := "root", id := 0, conn := 0, send := [], sendClosed := false,
        undeliveredMsg := ["m1", "m2"] }
      (by decide) (by decide) (by decide) 7).1

/-- C6.  The undelivered backlog is a bounded FIFO: appends keep it within
`maxUndeliveredMsg` (= 100) entries; an append to a full backlog drops the
oldest entry first; folding any message sequence into an empty backlog
retains exactly the 100 most recent messages in arrival order (all of them
when fewer than 100); and the `Client` method updates exactly the backlog
field this way. -/
theorem C6_backlog_bounded :
    (∀ (b : List Msg) (m : Msg), b.length ≤ maxUndeliveredMsg →
      (addUndelivered b m).length ≤ maxUndeliveredMsg) ∧
    (∀ (b : List Msg) (m : Msg), b.length = maxUndeliveredMsg →
      addUndelivered b m = b.drop 1 ++ [m]) ∧
    (∀ ms : List Msg, ms.foldl addUndelivered [] = lastN maxUndeliveredMsg ms) ∧
    (∀ ms : List Msg, maxUndeliveredMsg ≤ ms.length →
      (ms.foldl addUndelivered []).length = maxUndeliveredMsg) ∧
    (∀ (c : Client) (m : Msg),
      (addUndeliveredMsg c m).undeliveredMsg = addUndelivered c.undeliveredMsg m) := by
  refine ⟨fun b m hb => addUndelivered_length_le hb,
    fun b m hb => addUndelivered_evict (le_of_eq hb.symm) m, ?_, ?_, fun c m => rfl⟩
  · intro ms
    rw [foldl_addUndelivered ms [] (by simp)]
    rw [List.nil_append]
  · intro ms hms
    rw [foldl_addUndelivered ms [] (by simp), List.nil_append]
    unfold lastN
    simp only [List.length_drop]
    omega

/-- C6, witness: one append to a full backlog and a 105-message fold. -/
theorem C6_backlog_bounded_witness :
    addUndelivered (List.replicate 100 "x") "y" =
        (List.replicate 100 "x").drop 1 ++ ["y"] ∧
      ((List.replicate 105 "z").foldl addUndelivered []).length =
        maxUndeliveredMsg :=
  ⟨C6_backlog_bounded.2.1 (List.replicate 100 "x") "y" (by decide),
    C6_backlog_bounded.2.2.2.1 (List.replicate 105 "z") (by decide)⟩

end Ctx

namespace Ctx

/-- C7.  A register request always succeeds.  If the supplied reconnection
id is registered, the existing entry is reused in place: table and rooms
are untouched, the entry's transport is replaced and its backlog flushed
into the outbound queue.  If the id misses (or none is supplied via the
`none` path of `serveWs`), a fresh client is added under a fresh id,
leaving every other table entry unchanged.  In both cases — and after any
register — the table keys stay pairwise distinct, so no two entries ever
share an identity. -/
theorem C7_register_always_succeeds (s : HubState) (h : WF s) (conn : Nat) :
    (∀ cid p, mlookup cid s.clients = some p →
      (serveWs s (some cid) conn).clients = s.clients ∧
      (serveWs s (some cid) conn).rooms = s.rooms ∧
      (∀ c, mlookup p s.heap = some c →
        mlookup p (serveWs s (some cid) conn).heap =
          some { c with conn := conn, send := c.send ++ c.undeliveredMsg,
                        undeliveredMsg := [] })) ∧
    (∀ cid, mlookup cid s.clients = none →
      mlookup s.nextId (serveWs s (some cid) conn).clients = some s.nextPtr ∧
      mlookup s.nextPtr (serveWs s (some cid) conn).heap =
          some (newClient s.nextId conn) ∧
      (∀ id2, id2 ≠ s.nextId →
        mlookup id2 (serveWs s (some cid) conn).clients = mlookup id2 s.clients)) ∧
    (∀ cid, tableKeysNodup (serveWs s cid conn)) := by
  refine ⟨?_, ?_, fun cid => (WF_serveWs h cid conn).2.1⟩
  · intro cid p hm
    rw [serveWs_reconnect h hm]
    refine ⟨rfl, rfl, ?_⟩
    intro c hc
    show mlookup p (mupd p _ s.heap) = _
    rw [mlookup_mupd_self, hc]
    rfl
  · intro cid hm
    rw [serveWs_fresh_of_miss hm, serveWsNew_eq]
    refine ⟨?_, ?_, ?_⟩
    · show mlookup s.nextId (mput s.nextId s.nextPtr s.clients) = some s.nextPtr
      exact mlookup_mput_self _ _ _
    · show mlookup s.nextPtr (mput s.nextPtr (newClient s.nextId conn) s.heap) = _
      exact mlookup_mput_self _ _ _
    · intro id2 hne
      show mlookup id2 (mput s.nextId s.nextPtr s.clients) = mlookup id2 s.clients
      exact mlookup_mput_ne hne _ _

/-- C7, witness: a reconnect (id 0) and a fresh connect (id 42 misses) at
the sample state. -/
theorem C7_register_always_succeeds_witness :
    (serveWs sample1 (some 0) 3).clients = sample1.clients ∧
      mlookup sample1.nextId (serveWs sample1 (some 42) 3).clients =
        some sample1.nextPtr :=
  ⟨((C7_register_always_succeeds sample1 (by decide) 3).1 0 0 (by decide)).1,
    ((C7_register_always_succeeds sample1 (by decide) 3).2.1 42 (by decide)).1⟩

/-- C8.  Room lifecycle: the leave handler removes the connection from the
room's membership, deletes the room exactly when the membership empties,
and is a no-op for a nonexistent room or (in a room that still has other
members) for a non-member; the join handler creates a missing room and
populates it with just the joiner, so a room re-created after deletion
carries no old membership.  (Reachable rooms are never empty —
`roomsNonempty` is part of `WF`, preserved by `WF_step` — which is why the
non-member no-op case may assume the membership nonempty.) -/
theorem C8_room_lifecycle (s : HubState) (p : Nat) (r : String) :
    (∀ mem, mlookup r s.rooms = some mem →
      (sdel p mem = [] →
        handleLeaveRoom s p r = { s with rooms := mdel r s.rooms } ∧
        mlookup r (handleLeaveRoom s p r).rooms = none) ∧
      (sdel p mem ≠ [] →
        handleLeaveRoom s p r = { s with rooms := mput r (sdel p mem) s.rooms } ∧
        mlookup r (handleLeaveRoom s p r).rooms = some (sdel p mem) ∧
        p ∉ sdel p mem) ∧
      (p ∉ mem → mem ≠ [] → handleLeaveRoom s p r = s)) ∧
    (mlookup r s.rooms = none → handleLeaveRoom s p r = s) ∧
    (mlookup r s.rooms = none →
      mlookup r (handleJoinRoom s p r).rooms = some [p]) := by
  refine ⟨?_, fun hm => handleLeaveRoom_eq_none hm p, ?_⟩
  · intro mem hm
    refine ⟨fun he => ?_, fun he => ?_, fun hpm hne => ?_⟩
    · refine ⟨handleLeaveRoom_eq_empty hm he, ?_⟩
      rw [handleLeaveRoom_eq_empty hm he]
      show mlookup r (mdel r s.rooms) = none
      exact mlookup_mdel_self r s.rooms
    · refine ⟨handleLeaveRoom_eq_nonempty hm he, ?_, not_mem_sdel_self p mem⟩
      rw [handleLeaveRoom_eq_nonempty hm he]
      show mlookup r (mput r (sdel p mem) s.rooms) = some (sdel p mem)
      exact mlookup_mput_self _ _ _
    · have hsd : sdel p mem = mem := sdel_eq_self hpm
      rw [handleLeaveRoom_eq_nonempty hm (by rw [hsd]; exact hne), hsd, mput_self hm]
  · intro hm
    rw [handleJoinRoom_eq_none hm]
    show mlookup r (mput r [p] s.rooms) = some [p]
    exact mlookup_mput_self _ _ _

/-- C8, witness: leaving `"lobby"` as its only member deletes the room;
joining the nonexistent `"den"` creates it with just the joiner. -/
theorem C8_room_lifecycle_witness :
    mlookup "lobby" (handleLeaveRoom sample1 0 "lobby").rooms = none ∧
      mlookup "den" (handleJoinRoom sample1 0 "den").rooms = some [0] :=
  ⟨(((C8_room_lifecycle sample1 0 "lobby").1 [0] (by decide)).1 (by decide)).2,
    (C8_room_lifecycle sample1 0 "den").2.2 (by decide)⟩

end Ctx

namespace Ctx

/-- C9.  After normalization (newlines to spaces, surrounding whitespace
trimmed), one read-loop iteration is decided solely by the frame's prefix:
`join_room:` joins and enqueues the `join_room_success:` confirmation on
the issuing connection only; `room_message:`/`private_message:` (with a
well-formed body separator) route to the room handler / name-matching
scan; `leave_room:` leaves and confirms to the issuer only; a frame
matching none of the four prefixes is broadcast globally. -/
theorem C9_dispatch (s : HubState) (p : Nat) (raw : String) :
    (List.isPrefixOf "join_room:".data (normalizeFrame raw).data = true →
      handleFrame s p raw =
          .ok (enqueueTo
            (handleJoinRoom s p (String.mk ((normalizeFrame raw).data.drop 10))) p
            ("join_room_success:" ++ String.mk ((normalizeFrame raw).data.drop 10))) ∧
        (∀ q, q ≠ p →
          mlookup q (enqueueTo
            (handleJoinRoom s p (String.mk ((normalizeFrame raw).data.drop 10))) p
            ("join_room_success:" ++
              String.mk ((normalizeFrame raw).data.drop 10))).heap =
          mlookup q s.heap) ∧
        (∀ c, mlookup p s.heap = some c →
          mlookup p (enqueueTo
            (handleJoinRoom s p (String.mk ((normalizeFrame raw).data.drop 10))) p
            ("join_room_success:" ++
              String.mk ((normalizeFrame raw).data.drop 10))).heap =
          some (pushMsg ("join_room_success:" ++
            String.mk ((normalizeFrame raw).data.drop 10)) c))) ∧
    (∀ rn bd, List.isPrefixOf "room_message:".data (normalizeFrame raw).data = true →
      splitN2 ((normalizeFrame raw).data.drop 13) = [rn, bd] →
      handleFrame s p raw =
        .ok (handleRoomBroadcast s (String.mk rn) (String.mk bd))) ∧
    (List.isPrefixOf "leave_room:".data (normalizeFrame raw).data = true →
      handleFrame s p raw =
          .ok (enqueueTo
            (handleLeaveRoom s p (String.mk ((normalizeFrame raw).data.drop 11))) p
            ("leave_room_success:" ++ String.mk ((normalizeFrame raw).data.drop 11))) ∧
        (∀ q, q ≠ p →
          mlookup q (enqueueTo
            (handleLeaveRoom s p (String.mk ((normalizeFrame raw).data.drop 11))) p
            ("leave_room_success:" ++
              String.mk ((normalizeFrame raw).data.drop 11))).heap =
          mlookup q s.heap)) ∧
    (∀ rc bd, List.isPrefixOf "private_message:".data (normalizeFrame raw).data = true →
      splitN2 ((normalizeFrame raw).data.drop 16) = [rc, bd] →
      handleFrame s p raw =
        .ok (handlePrivateMessage s (String.mk rc) (String.mk bd))) ∧
    (List.isPrefixOf "join_room:".data (normalizeFrame raw).data = false →
      List.isPrefixOf "room_message:".data (normalizeFrame raw).data = false →
      List.isPrefixOf "leave_room:".data (normalizeFrame raw).data = false →
      List.isPrefixOf "private_message:".data (normalizeFrame raw).data = false →
      handleFrame s p raw = .ok (hubBroadcast s (normalizeFrame raw))) := by
  refine ⟨?_, fun rn bd h hsp => handleFrame_eq_room h hsp, ?_,
    fun rc bd h hsp => handleFrame_eq_priv h hsp,
    fun h1 h2 h3 h4 => handleFrame_eq_global h1 h2 h3 h4⟩
  · intro h
    refine ⟨handleFrame_eq_join h, ?_, ?_⟩
    · intro q hq
      show mlookup q (mupd p _ (handleJoinRoom s p _).heap) = mlookup q s.heap
      rw [mlookup_mupd_ne hq, handleJoinRoom_heap]
    · intro c hc
      show mlookup p (mupd p _ (handleJoinRoom s p _).heap) = _
      rw [mlookup_mupd_self, handleJoinRoom_heap, hc]
      rfl
  · intro h
    refine ⟨handleFrame_eq_leave h, ?_⟩
    intro q hq
    show mlookup q (mupd p _ (handleLeaveRoom s p _).heap) = mlookup q s.heap
    rw [mlookup_mupd_ne hq, handleLeaveRoom_heap]

/-- C9, witness: a concrete `join_room:` frame and a concrete unprefixed
frame at the sample state. -/
theorem C9_dispatch_witness :
    handleFrame sample1 0 "join_room:den" =
        .ok (enqueueTo
          (handleJoinRoom sample1 0
            (String.mk ((normalizeFrame "join_room:den").data.drop 10))) 0
          ("join_room_success:" ++
            String.mk ((normalizeFrame "join_room:den").data.drop 10))) ∧
      handleFrame sample1 0 "hello all" =
        .ok (hubBroadcast sample1 (normalizeFrame "hello all")) :=
  ⟨((C9_dispatch sample1 0 "join_room:den").1 (by decide)).1,
    (C9_dispatch sample1 0 "hello all").2.2.2.2 (by decide) (by decide) (by decide)
      (by decide)⟩

/-- C10.  Every client is created with the constant display name `"root"`
and no hub operation changes any display name; consequently, in a
well-formed all-root state a `private_message:root <body>` delivers the
body to every registered connection, and a private message to any other
name delivers to none (the state is unchanged). -/
theorem C10_root_private_delivery (s : HubState) (h : WF s) (hn : namesRoot s) :
    (∀ cid conn, (newClient cid conn).name = "root") ∧
    (∀ conn, mlookup s.nextPtr (serveWsNew s conn).heap =
      some (newClient s.nextId conn)) ∧
    (∀ op, namesRoot (step s op)) ∧
    (∀ b cid p c, mlookup cid s.clients = some p → mlookup p s.heap = some c →
      mlookup p (handlePrivateMessage s "root" b).heap = some (pushMsg b c)) ∧
    (∀ b n, n ≠ "root" → handlePrivateMessage s n b = s) := by
  refine ⟨fun cid conn => rfl, ?_, fun op => namesRoot_step hn op,
    fun b cid p c hm hc => handlePrivateMessage_root_send h hn hm hc b,
    fun b n hne => handlePrivateMessage_other hn hne b⟩
  intro conn
  rw [serveWsNew_eq]
  show mlookup s.nextPtr (mput s.nextPtr (newClient s.nextId conn) s.heap) = _
  exact mlookup_mput_self _ _ _

/-- C10, witness: at the sample state, `private_message:root` reaches the
one registered connection and `private_message:alice` changes nothing. -/
theorem C10_root_private_delivery_witness :
    mlookup 0 (handlePrivateMessage sample1 "root" "hi").heap =
        some (pushMsg "hi" (newClient 0 0)) ∧
      handlePrivateMessage sample1 "alice" "hi" = sample1 :=
  ⟨(C10_root_private_delivery sample1 (by decide) (by decide)).2.2.2.1 "hi" 0 0
      (newClient 0 0) (by decide) (by decide),
    (C10_root_private_delivery sample1 (by decide) (by decide)).2.2.2.2 "hi" "alice"
      (by decide)⟩

end Ctx

namespace WS

/-- A registered client whose 256-slot outbound queue is completely full. -/
def fullClient : Client :=
  { name := "root", send := List.replicate 256 "x", sendCap := 256,
    sendClosed := false }

/-- A hub with exactly the one full-queue client registered. -/
def fullState : HubState :=
  { heap := [(0, fullClient)], clients := [0], rooms := [], nextPtr := 1 }

/-- Two registered clients: pointer 0 full, pointer 1 with room to spare. -/
def roomyClient : Client :=
  { name := "root", send := [], sendCap := 256, sendClosed := false }

/-- A hub with the full client (0) and the roomy client (1). -/
def mixedState : HubState :=
  { heap := [(0, fullClient), (1, roomyClient)], clients := [0, 1], rooms := [],
    nextPtr := 2 }

set_option maxRecDepth 8192 in
/-- C4, counterexample.  Broadcasting to a registered connection whose
outbound queue is full does not merely skip it: the `default` branch of the
`select` closes the connection's queue and deletes it from the client
table, so it is not "skipped … remaining registered with its queue open". -/
theorem C4_counterexample :
    0 ∉ (hubBroadcast fullState "hello").clients ∧
      (mlookup 0 (hubBroadcast fullState "hello").heap).map Client.sendClosed =
        some true := by
  decide

/-- C4, amended.  For each registered connection the broadcast fan-out is
non-blocking and decided by that connection's own queue: with free space
the payload is appended and the connection stays registered; with a full
queue the connection is evicted — its queue is closed and it is removed
from the client table for good, not skipped for just this message.  (The
`context.go` revision instead blocks on `client.send <- message` with no
eviction at all.) -/
theorem C4_broadcast_policy (s : HubState) (m : Msg) (hnd : s.clients.Nodup)
    {p : Nat} (hp : p ∈ s.clients) {c : Client} (hc : mlookup p s.heap = some c)
    (hopen : c.sendClosed = false) :
    (c.send.length < c.sendCap →
      mlookup p (hubBroadcast s m).heap = some { c with send := c.send ++ [m] } ∧
      p ∈ (hubBroadcast s m).clients) ∧
    (¬c.send.length < c.sendCap →
      mlookup p (hubBroadcast s m).heap = some (closeSend c) ∧
      p ∉ (hubBroadcast s m).clients) := by
  have heff := foldBroadcast_effect m hnd hp s c hc
  constructor
  · intro hroom
    have h1 := heff.1 ⟨hroom, hopen⟩
    exact ⟨h1.1, h1.2.mpr hp⟩
  · intro hroom
    refine heff.2 ?_
    rintro ⟨ha, _⟩
    exact hroom ha

set_option maxRecDepth 8192 in
/-- C4, witness: one broadcast over the mixed state enqueues on the roomy
client and evicts the full one. -/
theorem C4_broadcast_policy_witness :
    (1 ∈ (hubBroadcast mixedState "hello").clients) ∧
      0 ∉ (hubBroadcast mixedState "hello").clients :=
  ⟨((@C4_broadcast_policy mixedState "hello" (by decide) 1 (by decide) roomyClient
        (by decide) (by decide)).1 (by decide)).2,
    ((@C4_broadcast_policy mixedState "hello" (by decide) 0 (by decide) fullClient
        (by decide) (by decide)).2 (by decide)).2⟩

end WS
